import Mathlib

/-!
Verification of the HashLife core (`src/hashlife.rs`) and its wasm-facing
wrapper (`src/wasm.rs`).

The Rust code builds a hash-consed quadtree.  Every node is produced by the
`NodeCache` factory, whose `get_inner(nw, ne, sw, se)` always returns a node
whose content is exactly `Inner(nw, ne, sw, se)` (it only deduplicates
allocations; it never changes the structural value), and whose
`get_leaf(alive)` returns a leaf with exactly that cell value.  Consequently
the *structural value* of every node manipulated by `Universe` is captured by
a plain tree, and all value-level operations (`set_cell`, `get_cell`,
`expand`, `step`, `next_generation_single`, `compute_level2`, ...) are
embedded below as pure functions on that tree.  The identity/allocation layer
(the hash-consing cache itself, which is what dedup affects) is modelled
separately further down as an arena (`NodeCache`), where "identity" is an
arena index, exactly mirroring `Rc::as_ptr`-keyed canonicalization.

The Rust `Node` stores its `level` and `population`; both are derived fields
(`Node::inner` computes them from the children, `Node::leaf` from the cell),
so here they are recursive functions of the tree.
-/

/-- A quadtree node: either a single cell or four equal-level quadrants
(`src/hashlife.rs`, `Node` / `NodeContent`). -/
inductive Node where
  | leaf (alive : Bool)
  | inner (nw ne sw se : Node)
deriving DecidableEq, Repr

namespace Node

/-- `level` field of `Node`: 0 for a leaf; `Node::inner` stores
`nw.level + 1` (it asserts all four children agree, which is the
well-formedness predicate `wf` below). -/
def level : Node → Nat
  | leaf _ => 0
  | inner nw _ _ _ => nw.level + 1

/-- `population` field of `Node`: live-cell count, as computed by
`Node::leaf` and `Node::inner`. -/
def population : Node → Nat
  | leaf a => if a then 1 else 0
  | inner nw ne sw se => nw.population + ne.population + sw.population + se.population

/-- `Node::is_alive`: true only for a live leaf. -/
def is_alive : Node → Bool
  | leaf a => a
  | inner _ _ _ _ => false

/-- The assertion in `Node::inner` (all four children share a level), made
recursive: the well-formed trees are exactly those the Rust code can build. -/
def wf : Node → Prop
  | leaf _ => True
  | inner nw ne sw se =>
      ne.level = nw.level ∧ sw.level = nw.level ∧ se.level = nw.level ∧
        nw.wf ∧ ne.wf ∧ sw.wf ∧ se.wf

instance decWf : (n : Node) → Decidable n.wf
  | leaf _ => isTrue trivial
  | inner nw ne sw se =>
      have := decWf nw
      have := decWf ne
      have := decWf sw
      have := decWf se
      inferInstanceAs (Decidable (_ ∧ _ ∧ _ ∧ _ ∧ _ ∧ _ ∧ _))

/-- Quadrant accessor, as used by `get_quadrants` in
`Universe::next_generation_single`; on a leaf (unreachable in the source,
which panics) it returns the node itself. -/
def q_nw : Node → Node
  | inner nw _ _ _ => nw
  | n => n

/-- Quadrant accessor (north-east); see `q_nw`. -/
def q_ne : Node → Node
  | inner _ ne _ _ => ne
  | n => n

/-- Quadrant accessor (south-west); see `q_nw`. -/
def q_sw : Node → Node
  | inner _ _ sw _ => sw
  | n => n

/-- Quadrant accessor (south-east); see `q_nw`. -/
def q_se : Node → Node
  | inner _ _ _ se => se
  | n => n

end Node

/-- `NodeCache::get_empty`: the canonical all-dead node of a given level
(structural value; canonicalization itself is modelled in the arena section). -/
def get_empty : Nat → Node
  | 0 => .leaf false
  | l + 1 =>
      let sub := get_empty l
      .inner sub sub sub sub

/-- The `Universe` struct (`src/hashlife.rs` lines 145-149).  Its fields are
`root`, `cache` and `generation`; the cache only canonicalizes allocations and
never affects structural values, so it is not part of the value-level state
modelled here (it is modelled separately as the arena `NodeCache`).  Note the
struct has no `result_cache` field. -/
structure Universe where
  root : Node
  generation : Nat
deriving DecidableEq, Repr

/-- `let size = 1i64 << level; let half_size = size / 2;` as in
`Universe::set_cell` / `Universe::get_cell`.  This agrees with the i64
source exactly for `level ≤ 62`; at level 63 the i64 shift wraps to a
negative value and at level ≥ 64 the shift amount overflows, a regime
modelled with exact i64 semantics by `half_size_i64` and
`expand_level_i64` in the level-cap section below. -/
def half_size (level : Nat) : Int := (2 ^ level : Int) / 2

/-- `Universe::new`: empty universe at level `max(size_level, 3)`. -/
def Universe.new (size_level : Nat) : Universe :=
  { root := get_empty (max size_level 3), generation := 0 }

/-- `Universe::set_cell_recursive`.  The Rust reads the stored
`node.level - 1` for the half size; here `node.level - 1 = nw.level`
definitionally, so `2 ^ nw.level` is that exact value
(`1i64 << (node.level - 1)`). -/
def set_cell_recursive : Node → Int → Int → Bool → Int → Int → Node
  | .leaf _, _, _, alive, _, _ => .leaf alive
  | .inner nw ne sw se, x, y, alive, node_x, node_y =>
      let half : Int := 2 ^ nw.level
      let mid_x := node_x + half
      let mid_y := node_y + half
      if x < mid_x ∧ y < mid_y then
        .inner (set_cell_recursive nw x y alive node_x node_y) ne sw se
      else if x ≥ mid_x ∧ y < mid_y then
        .inner nw (set_cell_recursive ne x y alive mid_x node_y) sw se
      else if x < mid_x ∧ y ≥ mid_y then
        .inner nw ne (set_cell_recursive sw x y alive node_x mid_y) se
      else
        .inner nw ne sw (set_cell_recursive se x y alive mid_x mid_y)

/-- `Universe::get_cell_recursive`. -/
def get_cell_recursive : Node → Int → Int → Int → Int → Bool
  | .leaf a, _, _, _, _ => a
  | .inner nw ne sw se, x, y, node_x, node_y =>
      let half : Int := 2 ^ nw.level
      let mid_x := node_x + half
      let mid_y := node_y + half
      if x < mid_x ∧ y < mid_y then get_cell_recursive nw x y node_x node_y
      else if x ≥ mid_x ∧ y < mid_y then get_cell_recursive ne x y mid_x node_y
      else if x < mid_x ∧ y ≥ mid_y then get_cell_recursive sw x y node_x mid_y
      else get_cell_recursive se x y mid_x mid_y

/-- `Universe::get_cell`: out-of-window coordinates read as dead, without
expanding. -/
def get_cell (u : Universe) (x y : Int) : Bool :=
  let half := half_size u.root.level
  if x < -half ∨ x ≥ half ∨ y < -half ∨ y ≥ half then false
  else get_cell_recursive u.root x y (-half) (-half)

/-- `Universe::expand`: wrap the root in a doubled window, padding each child
with empty siblings so the old children sit at the centre.  The source
destructures an `Inner` root (`unreachable!()` on a leaf, since the root level
is always ≥ 3); the leaf branch here is a level-increasing fallback for
totality and is never hit under the theorems' hypotheses. -/
def expand (u : Universe) : Universe :=
  match u.root with
  | .leaf a =>
      { u with root := .inner (.leaf a) (.leaf a) (.leaf a) (.leaf a) }
  | .inner nw ne sw se =>
      let empty := get_empty ((Node.inner nw ne sw se).level - 1)
      let new_nw := Node.inner empty empty empty nw
      let new_ne := Node.inner empty empty ne empty
      let new_sw := Node.inner empty sw empty empty
      let new_se := Node.inner se empty empty empty
      { u with root := .inner new_nw new_ne new_sw new_se }

/-- A root level at which `(x, y)` certainly fits in the centered window:
`half_size l = 2 ^ (l - 1) > max |x| |y|` holds for every
`l ≥ fit_level x y` (a generous overestimate, since `m < 2 ^ (m + 1)`).
Used only to bound the number of `expand` iterations in `set_cell` (the Rust
`set_cell` retries after `expand` until the coordinate is inside the
window). -/
def fit_level (x y : Int) : Nat := max x.natAbs y.natAbs + 2

/-- The expand-and-retry loop of `Universe::set_cell`, with an explicit bound
`fuel` on the number of retries.  `set_cell` supplies fuel that exceeds the
number of `expand` steps any coordinate can need (each `expand` raises the
level by one, and the coordinate fits once the level reaches
`fit_level x y`), so the fuel-exhausted branch is unreachable and the loop
agrees with the source's unbounded recursion. -/
def set_cell_loop : Nat → Universe → Int → Int → Bool → Universe
  | 0, u, _, _, _ => u
  | fuel + 1, u, x, y, alive =>
      let half := half_size u.root.level
      if x < -half ∨ x ≥ half ∨ y < -half ∨ y ≥ half then
        set_cell_loop fuel (expand u) x y alive
      else
        { u with root := set_cell_recursive u.root x y alive (-half) (-half) }

/-- `Universe::set_cell`: expand until `(x, y)` is inside the window, then
path-copy down to the target leaf. -/
def set_cell (u : Universe) (x y : Int) (alive : Bool) : Universe :=
  set_cell_loop (fit_level x y + 3) u x y alive

section BasicLemmas

@[simp] theorem level_get_empty (l : Nat) : (get_empty l).level = l := by
  induction l with
  | zero => rfl
  | succ l ih => simp [get_empty, Node.level, ih]

theorem wf_get_empty (l : Nat) : (get_empty l).wf := by
  induction l with
  | zero => trivial
  | succ l ih => exact ⟨rfl, rfl, rfl, ih, ih, ih, ih⟩

@[simp] theorem population_get_empty (l : Nat) : (get_empty l).population = 0 := by
  induction l with
  | zero => rfl
  | succ l ih => simp [get_empty, Node.population, ih]

theorem get_cell_recursive_empty (l : Nat) (x y ox oy : Int) :
    get_cell_recursive (get_empty l) x y ox oy = false := by
  induction l generalizing ox oy with
  | zero => rfl
  | succ l ih =>
      simp only [get_empty, get_cell_recursive]
      split <;> first | exact ih _ _ | skip
      split <;> first | exact ih _ _ | skip
      split <;> exact ih _ _

theorem level_set_cell_recursive (n : Node) (x y : Int) (v : Bool) (ox oy : Int) :
    (set_cell_recursive n x y v ox oy).level = n.level := by
  induction n generalizing ox oy with
  | leaf a => rfl
  | inner nw ne sw se ihnw ihne ihsw ihse =>
      simp only [set_cell_recursive]
      split
      · simp [Node.level, ihnw]
      · split
        · simp [Node.level]
        · split <;> simp [Node.level]

theorem wf_set_cell_recursive (n : Node) (x y : Int) (v : Bool) (ox oy : Int)
    (h : n.wf) : (set_cell_recursive n x y v ox oy).wf := by
  induction n generalizing ox oy with
  | leaf a => trivial
  | inner nw ne sw se ihnw ihne ihsw ihse =>
      obtain ⟨h1, h2, h3, hnw, hne, hsw, hse⟩ := h
      simp only [set_cell_recursive]
      split
      · exact ⟨by rw [level_set_cell_recursive]; exact h1,
          by rw [level_set_cell_recursive]; exact h2,
          by rw [level_set_cell_recursive]; exact h3,
          ihnw _ _ hnw, hne, hsw, hse⟩
      · split
        · exact ⟨by rw [level_set_cell_recursive]; exact h1, h2, h3,
            hnw, ihne _ _ hne, hsw, hse⟩
        · split
          · exact ⟨h1, by rw [level_set_cell_recursive]; exact h2, h3,
              hnw, hne, ihsw _ _ hsw, hse⟩
          · exact ⟨h1, h2, by rw [level_set_cell_recursive]; exact h3,
              hnw, hne, hsw, ihse _ _ hse⟩

/-- Reading back the coordinate just written returns the written value: the
set and get traversals take the same branch at every node because
`set_cell_recursive` preserves every level along the path. -/
theorem get_set_same (n : Node) (x y : Int) (v : Bool) (ox oy : Int) :
    get_cell_recursive (set_cell_recursive n x y v ox oy) x y ox oy = v := by
  induction n generalizing ox oy with
  | leaf a => rfl
  | inner nw ne sw se ihnw ihne ihsw ihse =>
      simp only [set_cell_recursive]
      split
      · rename_i hc
        simp only [get_cell_recursive, level_set_cell_recursive, if_pos hc]
        exact ihnw _ _
      · rename_i hc1
        split
        · rename_i hc2
          simp only [get_cell_recursive, if_neg hc1, if_pos hc2]
          exact ihne _ _
        · rename_i hc2
          split
          · rename_i hc3
            simp only [get_cell_recursive, if_neg hc1, if_neg hc2, if_pos hc3]
            exact ihsw _ _
          · rename_i hc3
            simp only [get_cell_recursive, if_neg hc1, if_neg hc2, if_neg hc3]
            exact ihse _ _

end BasicLemmas

section FrameLemmas

/-- Writing one cell leaves every other coordinate inside the node's square
unchanged: the set traversal rebuilds only the spine to the target leaf. -/
theorem get_set_other (n : Node) (x y x' y' : Int) (v : Bool) (ox oy : Int)
    (hw : n.wf)
    (hx1 : ox ≤ x) (hx2 : x < ox + 2 ^ n.level)
    (hy1 : oy ≤ y) (hy2 : y < oy + 2 ^ n.level)
    (hx1' : ox ≤ x') (hx2' : x' < ox + 2 ^ n.level)
    (hy1' : oy ≤ y') (hy2' : y' < oy + 2 ^ n.level)
    (hne : ¬(x' = x ∧ y' = y)) :
    get_cell_recursive (set_cell_recursive n x y v ox oy) x' y' ox oy =
      get_cell_recursive n x' y' ox oy := by
  induction n generalizing ox oy with
  | leaf a =>
      exfalso
      apply hne
      simp only [Node.level, pow_zero] at hx2 hy2 hx2' hy2'
      omega
  | inner nw ne sw se ihnw ihne ihsw ihse =>
      obtain ⟨hlne, hlsw, hlse, hwnw, hwne, hwsw, hwse⟩ := hw
      simp only [Node.level, pow_succ] at hx2 hy2 hx2' hy2'
      have hKpos : (0:Int) < 2 ^ nw.level := by positivity
      have hKne : (2:Int) ^ ne.level = 2 ^ nw.level := by rw [hlne]
      have hKsw : (2:Int) ^ sw.level = 2 ^ nw.level := by rw [hlsw]
      have hKse : (2:Int) ^ se.level = 2 ^ nw.level := by rw [hlse]
      simp only [set_cell_recursive]
      split_ifs with hA hB hC
      · -- written into nw
        simp only [get_cell_recursive, level_set_cell_recursive]
        split_ifs with h1 h2 h3
        · exact ihnw ox oy hwnw hx1 (by omega) hy1 (by omega)
            hx1' (by omega) hy1' (by omega)
        · rfl
        · rfl
        · rfl
      · -- written into ne
        simp only [get_cell_recursive, level_set_cell_recursive]
        split_ifs with h1 h2 h3
        · rfl
        · exact ihne (ox + 2 ^ nw.level) oy hwne (by omega) (by omega) hy1
            (by omega) (by omega) (by omega) hy1' (by omega)
        · rfl
        · rfl
      · -- written into sw
        simp only [get_cell_recursive, level_set_cell_recursive]
        split_ifs with h1 h2 h3
        · rfl
        · rfl
        · exact ihsw ox (oy + 2 ^ nw.level) hwsw hx1 (by omega) (by omega)
            (by omega) hx1' (by omega) (by omega) (by omega)
        · rfl
      · -- written into se
        simp only [get_cell_recursive, level_set_cell_recursive]
        split_ifs with h1 h2 h3
        · rfl
        · rfl
        · rfl
        · exact ihse (ox + 2 ^ nw.level) (oy + 2 ^ nw.level) hwse (by omega)
            (by omega) (by omega) (by omega) (by omega) (by omega) (by omega)
            (by omega)

/-- Writing `false` at a coordinate that already reads dead along the
traversal rebuilds the identical tree. -/
theorem set_false_on_dead (n : Node) (x y ox oy : Int)
    (h : get_cell_recursive n x y ox oy = false) :
    set_cell_recursive n x y false ox oy = n := by
  induction n generalizing ox oy with
  | leaf a =>
      simp only [get_cell_recursive] at h
      simp [set_cell_recursive, h]
  | inner nw ne sw se ihnw ihne ihsw ihse =>
      simp only [get_cell_recursive] at h
      simp only [set_cell_recursive]
      split_ifs at h ⊢ with h1 h2 h3
      · rw [ihnw _ _ h]
      · rw [ihne _ _ h]
      · rw [ihsw _ _ h]
      · rw [ihse _ _ h]

end FrameLemmas

section ExpandLemmas

theorem half_size_succ (l : Nat) : half_size (l + 1) = 2 ^ l := by
  unfold half_size
  rw [pow_succ]
  exact Int.mul_ediv_cancel _ (by norm_num)

theorem expand_level (u : Universe) : (expand u).root.level = u.root.level + 1 := by
  cases h : u.root with
  | leaf a => simp [expand, h, Node.level]
  | inner nw ne sw se =>
      simp [expand, h, Node.level, level_get_empty]

theorem expand_generation (u : Universe) : (expand u).generation = u.generation := by
  cases h : u.root <;> simp [expand, h]

theorem wf_expand (u : Universe) (hw : u.root.wf) : (expand u).root.wf := by
  cases h : u.root with
  | leaf a => simp [expand, h, Node.wf, Node.level]
  | inner nw ne sw se =>
      rw [h] at hw
      obtain ⟨hlne, hlsw, hlse, hwnw, hwne, hwsw, hwse⟩ := hw
      have hwe := wf_get_empty nw.level
      simp only [expand, h, Node.level, Nat.add_sub_cancel]
      refine ⟨?_, ?_, ?_, ?_, ?_, ?_, ?_⟩ <;>
        simp [Node.wf, Node.level, level_get_empty, hlne, hlsw, hlse, hwe,
          hwnw, hwne, hwsw, hwse]

theorem population_expand (u : Universe) (hl : 1 ≤ u.root.level) :
    (expand u).root.population = u.root.population := by
  cases h : u.root with
  | leaf a => rw [h] at hl; simp [Node.level] at hl
  | inner nw ne sw se =>
      simp [expand, h, Node.population, Node.level, Nat.add_sub_cancel,
        population_get_empty]

end ExpandLemmas

set_option maxHeartbeats 2000000 in
/-- `expand` is read-transparent: every coordinate reads the same value in
the doubled window.  Coordinates inside the old window traverse to the same
subtree; new border coordinates land in empty padding and read dead, matching
the out-of-window `false` of the old root. -/
theorem get_cell_expand (u : Universe) (hw : u.root.wf) (hl : 1 ≤ u.root.level)
    (x y : Int) : get_cell (expand u) x y = get_cell u x y := by
  cases h : u.root with
  | leaf a => rw [h] at hl; simp [Node.level] at hl
  | inner nw ne sw se =>
      rw [h] at hw
      obtain ⟨hlne, hlsw, hlse, hwnw, hwne, hwsw, hwse⟩ := hw
      have hKpos : (0:Int) < 2 ^ nw.level := by positivity
      have hKne : (2:Int) ^ ne.level = 2 ^ nw.level := by rw [hlne]
      have hKsw : (2:Int) ^ sw.level = 2 ^ nw.level := by rw [hlsw]
      have hKse : (2:Int) ^ se.level = 2 ^ nw.level := by rw [hlse]
      simp only [get_cell, expand, h, Node.level, Nat.add_sub_cancel,
        level_get_empty, half_size_succ, pow_succ]
      split_ifs with hbig hsmall hsmall <;>
        first
        | rfl
        | (exfalso; omega)
        | · simp only [get_cell_recursive, Node.level, level_get_empty]
            split_ifs <;>
              first
              | rfl
              | (exfalso; omega)
              | (exact get_cell_recursive_empty _ _ _ _ _)
              | (congr 1 <;> omega)

section SetCellLemmas

/-- Once the root level reaches `fit_level x y`, the coordinate is inside the
centered window, so the expand-and-retry loop of `set_cell` stops. -/
theorem in_window_of_fit_level_le (x y : Int) (l : Nat) (h : fit_level x y ≤ l) :
    ¬(x < -half_size l ∨ x ≥ half_size l ∨ y < -half_size l ∨ y ≥ half_size l) := by
  obtain ⟨l', rfl⟩ : ∃ l', l = l' + 1 := ⟨l - 1, by unfold fit_level at h; omega⟩
  rw [half_size_succ]
  have hm : max x.natAbs y.natAbs < 2 ^ l' := by
    calc max x.natAbs y.natAbs
        < 2 ^ max x.natAbs y.natAbs := Nat.lt_two_pow _
      _ ≤ 2 ^ l' := Nat.pow_le_pow_right (by norm_num)
          (by unfold fit_level at h; omega)
  have hx : (x.natAbs : Int) < 2 ^ l' := by
    have h' : x.natAbs < 2 ^ l' := lt_of_le_of_lt (le_max_left _ _) hm
    exact_mod_cast h'
  have hy : (y.natAbs : Int) < 2 ^ l' := by
    have h' : y.natAbs < 2 ^ l' := lt_of_le_of_lt (le_max_right _ _) hm
    exact_mod_cast h'
  omega

/-- Reading back the coordinate just written by the in-window branch of
`set_cell` returns the written value. -/
theorem get_cell_set_direct_same (u : Universe) (x y : Int) (v : Bool)
    (hin : ¬(x < -half_size u.root.level ∨ x ≥ half_size u.root.level ∨
      y < -half_size u.root.level ∨ y ≥ half_size u.root.level)) :
    get_cell { u with root := (set_cell_recursive u.root x y v
        (-half_size u.root.level) (-half_size u.root.level)) } x y = v := by
  unfold get_cell
  simp only [level_set_cell_recursive]
  rw [if_neg hin]
  exact get_set_same _ _ _ _ _ _

/-- The in-window branch of `set_cell` leaves every other coordinate
unchanged. -/
theorem get_cell_set_direct_other (u : Universe) (x y : Int) (v : Bool)
    (hw : u.root.wf) (h1 : 1 ≤ u.root.level)
    (hin : ¬(x < -half_size u.root.level ∨ x ≥ half_size u.root.level ∨
      y < -half_size u.root.level ∨ y ≥ half_size u.root.level))
    (x' y' : Int) (hne : ¬(x' = x ∧ y' = y)) :
    get_cell { u with root := (set_cell_recursive u.root x y v
        (-half_size u.root.level) (-half_size u.root.level)) } x' y' =
      get_cell u x' y' := by
  unfold get_cell
  simp only [level_set_cell_recursive]
  by_cases hout' : x' < -half_size u.root.level ∨ x' ≥ half_size u.root.level ∨
      y' < -half_size u.root.level ∨ y' ≥ half_size u.root.level
  · rw [if_pos hout', if_pos hout']
  · rw [if_neg hout', if_neg hout']
    obtain ⟨l', hl'⟩ : ∃ l', u.root.level = l' + 1 := ⟨u.root.level - 1, by omega⟩
    rw [hl'] at hin hout' ⊢
    rw [half_size_succ] at hin hout' ⊢
    have hKpos : (0:Int) < 2 ^ l' := by positivity
    apply get_set_other _ _ _ _ _ _ _ _ hw <;>
      first
      | exact hne
      | (rw [hl', pow_succ]; omega)
      | omega

end SetCellLemmas

section SetCellSpec

/-- When the coordinate is already inside the window, the retry loop of
`set_cell` reduces to the single path-copying write, whatever the fuel. -/
theorem set_cell_loop_direct (fuel : Nat) (u : Universe) (x y : Int) (v : Bool)
    (hin : ¬(x < -half_size u.root.level ∨ x ≥ half_size u.root.level ∨
      y < -half_size u.root.level ∨ y ≥ half_size u.root.level)) :
    set_cell_loop (fuel + 1) u x y v =
      { u with root := (set_cell_recursive u.root x y v
          (-half_size u.root.level) (-half_size u.root.level)) } := by
  simp [set_cell_loop, hin]

/-- Properties of the in-window write: well-formedness, unchanged level and
generation, read-back, and the frame condition. -/
theorem set_cell_direct_spec (u : Universe) (x y : Int) (v : Bool)
    (hw : u.root.wf) (h3 : 3 ≤ u.root.level)
    (hin : ¬(x < -half_size u.root.level ∨ x ≥ half_size u.root.level ∨
      y < -half_size u.root.level ∨ y ≥ half_size u.root.level)) :
    ({ u with root := (set_cell_recursive u.root x y v
        (-half_size u.root.level) (-half_size u.root.level)) } : Universe).root.wf ∧
      3 ≤ ({ u with root := (set_cell_recursive u.root x y v
        (-half_size u.root.level) (-half_size u.root.level)) } : Universe).root.level ∧
      u.root.level ≤ ({ u with root := (set_cell_recursive u.root x y v
        (-half_size u.root.level) (-half_size u.root.level)) } : Universe).root.level ∧
      ({ u with root := (set_cell_recursive u.root x y v
        (-half_size u.root.level) (-half_size u.root.level)) } : Universe).generation =
        u.generation ∧
      get_cell ({ u with root := (set_cell_recursive u.root x y v
        (-half_size u.root.level) (-half_size u.root.level)) } : Universe) x y = v ∧
      ∀ x' y' : Int, ¬(x' = x ∧ y' = y) →
        get_cell ({ u with root := (set_cell_recursive u.root x y v
          (-half_size u.root.level) (-half_size u.root.level)) } : Universe) x' y' =
          get_cell u x' y' := by
  refine ⟨wf_set_cell_recursive _ _ _ _ _ _ hw, ?_, ?_, rfl,
    get_cell_set_direct_same u x y v hin, fun x' y' hne =>
      get_cell_set_direct_other u x y v hw (by omega) hin x' y' hne⟩
  · show 3 ≤ (set_cell_recursive u.root x y v _ _).level
    rw [level_set_cell_recursive]; exact h3
  · show u.root.level ≤ (set_cell_recursive u.root x y v _ _).level
    rw [level_set_cell_recursive]

/-- Main specification of the `set_cell` retry loop, by induction on the
fuel: provided the fuel suffices for the coordinate to fit (which `set_cell`
always arranges), the result is well-formed, keeps level ≥ 3 and the
generation, reads back `v` at `(x, y)` and leaves every other coordinate
unchanged. -/
theorem set_cell_loop_spec (fuel : Nat) :
    ∀ (u : Universe) (x y : Int) (v : Bool), u.root.wf → 3 ≤ u.root.level →
      fit_level x y ≤ u.root.level + fuel →
      (set_cell_loop (fuel + 1) u x y v).root.wf ∧
        3 ≤ (set_cell_loop (fuel + 1) u x y v).root.level ∧
        u.root.level ≤ (set_cell_loop (fuel + 1) u x y v).root.level ∧
        (set_cell_loop (fuel + 1) u x y v).generation = u.generation ∧
        get_cell (set_cell_loop (fuel + 1) u x y v) x y = v ∧
        ∀ x' y' : Int, ¬(x' = x ∧ y' = y) →
          get_cell (set_cell_loop (fuel + 1) u x y v) x' y' = get_cell u x' y' := by
  induction fuel with
  | zero =>
      intro u x y v hw h3 hfl
      have hin := in_window_of_fit_level_le x y u.root.level (by omega)
      rw [set_cell_loop_direct 0 u x y v hin]
      exact set_cell_direct_spec u x y v hw h3 hin
  | succ fuel ih =>
      intro u x y v hw h3 hfl
      by_cases hout : x < -half_size u.root.level ∨ x ≥ half_size u.root.level ∨
          y < -half_size u.root.level ∨ y ≥ half_size u.root.level
      · have hstep : set_cell_loop (fuel + 1 + 1) u x y v =
            set_cell_loop (fuel + 1) (expand u) x y v := by
          simp [set_cell_loop, hout]
        rw [hstep]
        have hw' := wf_expand u hw
        have h3' : 3 ≤ (expand u).root.level := by rw [expand_level]; omega
        have hfl' : fit_level x y ≤ (expand u).root.level + fuel := by
          rw [expand_level]; omega
        obtain ⟨c1, c2, c3, c4, c5, c6⟩ := ih (expand u) x y v hw' h3' hfl'
        refine ⟨c1, c2, ?_, ?_, c5, ?_⟩
        · rw [expand_level] at c3; omega
        · rw [c4, expand_generation]
        · intro x' y' hne
          rw [c6 x' y' hne, get_cell_expand u hw (by omega) x' y']
      · rw [set_cell_loop_direct (fuel + 1) u x y v hout]
        exact set_cell_direct_spec u x y v hw h3 hout

end SetCellSpec

/-- C4: for every coordinate `(x, y)` and value `v`, after `set_cell(x, y, v)`
the read `get_cell(x, y)` returns `v`, and every other coordinate (in
particular every other coordinate inside the window) reads exactly what it
read before the call. -/
theorem set_cell_get_cell_frame (u : Universe) (x y : Int) (v : Bool)
    (hw : u.root.wf) (h3 : 3 ≤ u.root.level) :
    get_cell (set_cell u x y v) x y = v ∧
      ∀ x' y' : Int, ¬(x' = x ∧ y' = y) →
        get_cell (set_cell u x y v) x' y' = get_cell u x' y' := by
  unfold set_cell
  have h := set_cell_loop_spec (fit_level x y + 2) u x y v hw h3 (by omega)
  exact ⟨h.2.2.2.2.1, h.2.2.2.2.2⟩

/-- Witness for C4 at a concrete input. -/
theorem set_cell_get_cell_frame_witness :
    get_cell (set_cell (Universe.new 3) 0 0 true) 0 0 = true ∧
      get_cell (set_cell (Universe.new 3) 0 0 true) 1 1 =
        get_cell (Universe.new 3) 1 1 := by
  have h := set_cell_get_cell_frame (Universe.new 3) 0 0 true (by decide) (by decide)
  exact ⟨h.1, h.2 1 1 (by decide)⟩

section SetCellDead

/-- Writing `false` at a coordinate that currently reads dead changes no
observable state except possibly growing the window (via `expand` retries). -/
theorem set_cell_loop_false_spec (fuel : Nat) :
    ∀ (u : Universe) (x y : Int), u.root.wf → 1 ≤ u.root.level →
      fit_level x y ≤ u.root.level + fuel → get_cell u x y = false →
      (set_cell_loop (fuel + 1) u x y false).root.population =
          u.root.population ∧
        (∀ x' y' : Int,
          get_cell (set_cell_loop (fuel + 1) u x y false) x' y' =
            get_cell u x' y') ∧
        u.root.level ≤ (set_cell_loop (fuel + 1) u x y false).root.level ∧
        (set_cell_loop (fuel + 1) u x y false).generation = u.generation ∧
        ¬(x < -half_size (set_cell_loop (fuel + 1) u x y false).root.level ∨
          x ≥ half_size (set_cell_loop (fuel + 1) u x y false).root.level ∨
          y < -half_size (set_cell_loop (fuel + 1) u x y false).root.level ∨
          y ≥ half_size (set_cell_loop (fuel + 1) u x y false).root.level) := by
  induction fuel with
  | zero =>
      intro u x y hw h1 hfl hdead
      have hin := in_window_of_fit_level_le x y u.root.level (by omega)
      rw [set_cell_loop_direct 0 u x y false hin]
      have hrec : get_cell_recursive u.root x y (-half_size u.root.level)
          (-half_size u.root.level) = false := by
        unfold get_cell at hdead
        rwa [if_neg hin] at hdead
      rw [set_false_on_dead u.root x y _ _ hrec]
      exact ⟨rfl, fun _ _ => rfl, le_refl _, rfl, hin⟩
  | succ fuel ih =>
      intro u x y hw h1 hfl hdead
      by_cases hout : x < -half_size u.root.level ∨ x ≥ half_size u.root.level ∨
          y < -half_size u.root.level ∨ y ≥ half_size u.root.level
      · have hstep : set_cell_loop (fuel + 1 + 1) u x y false =
            set_cell_loop (fuel + 1) (expand u) x y false := by
          simp [set_cell_loop, hout]
        rw [hstep]
        have hdead' : get_cell (expand u) x y = false := by
          rw [get_cell_expand u hw h1]; exact hdead
        obtain ⟨c1, c2, c3, c4, c5⟩ := ih (expand u) x y (wf_expand u hw)
          (by rw [expand_level]; omega) (by rw [expand_level]; omega) hdead'
        refine ⟨?_, ?_, ?_, ?_, c5⟩
        · rw [c1, population_expand u h1]
        · intro x' y'
          rw [c2 x' y', get_cell_expand u hw h1]
        · rw [expand_level] at c3; omega
        · rw [c4, expand_generation]
      · rw [set_cell_loop_direct (fuel + 1) u x y false hout]
        have hrec : get_cell_recursive u.root x y (-half_size u.root.level)
            (-half_size u.root.level) = false := by
          unfold get_cell at hdead
          rwa [if_neg hout] at hdead
        rw [set_false_on_dead u.root x y _ _ hrec]
        exact ⟨rfl, fun _ _ => rfl, le_refl _, rfl, hout⟩

/-- C8: a dead write outside the window changes neither the population nor
any `get_cell` reading, yet strictly raises the root level — the window is
doubled until the coordinate is inside it. -/
theorem set_cell_dead_outside (u : Universe) (x y : Int)
    (hw : u.root.wf) (h3 : 3 ≤ u.root.level)
    (hout : x < -half_size u.root.level ∨ x ≥ half_size u.root.level ∨
      y < -half_size u.root.level ∨ y ≥ half_size u.root.level) :
    (set_cell u x y false).root.population = u.root.population ∧
      (∀ x' y' : Int,
        get_cell (set_cell u x y false) x' y' = get_cell u x' y') ∧
      u.root.level < (set_cell u x y false).root.level ∧
      ¬(x < -half_size (set_cell u x y false).root.level ∨
        x ≥ half_size (set_cell u x y false).root.level ∨
        y < -half_size (set_cell u x y false).root.level ∨
        y ≥ half_size (set_cell u x y false).root.level) := by
  unfold set_cell
  have hstep : set_cell_loop (fit_level x y + 3) u x y false =
      set_cell_loop (fit_level x y + 1 + 1) (expand u) x y false := by
    simp [set_cell_loop, hout]
  rw [hstep]
  have hdead : get_cell u x y = false := by
    unfold get_cell
    rw [if_pos hout]
  have hdead' : get_cell (expand u) x y = false := by
    rw [get_cell_expand u hw (by omega)]; exact hdead
  obtain ⟨c1, c2, c3, c4, c5⟩ := set_cell_loop_false_spec (fit_level x y + 1)
    (expand u) x y (wf_expand u hw) (by rw [expand_level]; omega)
    (by rw [expand_level]; omega) hdead'
  refine ⟨?_, ?_, ?_, c5⟩
  · rw [c1, population_expand u (by omega)]
  · intro x' y'
    rw [c2 x' y', get_cell_expand u hw (by omega)]
  · rw [expand_level] at c3; omega

/-- Witness for C8 at a concrete input: a dead write at `(10, 0)`, outside
the level-3 window `[-4, 4)`. -/
theorem set_cell_dead_outside_witness :
    (set_cell (Universe.new 3) 10 0 false).root.population =
        (Universe.new 3).root.population ∧
      get_cell (set_cell (Universe.new 3) 10 0 false) 2 2 =
        get_cell (Universe.new 3) 2 2 ∧
      (Universe.new 3).root.level < (set_cell (Universe.new 3) 10 0 false).root.level := by
  have h := set_cell_dead_outside (Universe.new 3) 10 0 (by decide) (by decide)
    (by decide)
  exact ⟨h.1, h.2.1 2 2, h.2.2.1⟩

end SetCellDead

/-!
Single-generation evolution (`Universe::step`, `next_generation_single`,
`compute_level2` and the centre-subnode helpers).  The recursion of
`next_generation_single` descends one level per call (each of the nine
regions of a level-k node has level k-1), so it is written with an explicit
fuel initialized to the node's level; for well-formed inputs of level ≥ 2
the fuel never runs out and the function agrees with the source's unbounded
recursion.  The `unreachable!()` branches of the source (leaf where an inner
node is guaranteed) are total fallbacks returning the node unchanged.
-/

/-- `Universe::center_subnode_horizontal`: the mid strip between two
horizontally adjacent nodes. -/
def center_subnode_horizontal (left right : Node) : Node :=
  match left, right with
  | .inner _ lne _ lse, .inner rnw _ rsw _ => .inner lne rnw lse rsw
  | _, _ => left

/-- `Universe::center_subnode_vertical`: the mid strip between two vertically
adjacent nodes. -/
def center_subnode_vertical (top bottom : Node) : Node :=
  match top, bottom with
  | .inner _ _ tsw tse, .inner bnw bne _ _ => .inner tsw tse bnw bne
  | _, _ => top

/-- `Universe::center_node`: the centre square assembled from the inner
corners of the four quadrants. -/
def center_node (n : Node) : Node :=
  match n with
  | .inner (.inner _ _ _ nwse) (.inner _ _ nesw _) (.inner _ swne _ _)
      (.inner senw _ _ _) => .inner nwse nesw swne senw
  | _ => n

/-- The 4x4 scratch grid filled by `Universe::extract_2x2` from a level-2
node, indexed `cells[y][x]` exactly as in the source: the node's `nw` child
is placed at offset (0,0), `ne` at (2,0), `sw` at (0,2), `se` at (2,2), and
within each level-1 child its `nw`/`ne`/`sw`/`se` leaves land at the
(+0,+0)/(+1,+0)/(+0,+1)/(+1,+1) offsets. -/
def extract_grid (n : Node) (y x : Nat) : Bool :=
  match n with
  | .leaf a => a
  | .inner nw ne sw se =>
      let q := if y < 2 then (if x < 2 then nw else ne)
               else (if x < 2 then sw else se)
      match q with
      | .leaf a => a
      | .inner a b c d =>
          (if y % 2 = 0 then (if x % 2 = 0 then a else b)
           else (if x % 2 = 0 then c else d)).is_alive

/-- One term of the neighbor count: 1 when `(nx, ny)` is inside the 4x4 grid
and live, else 0.  The Rust casts a negative coordinate to `usize`, which
wraps far above 4 and fails the `nx < 4` test; the `0 ≤` guard here is
equivalent. -/
def nbr (cells : Nat → Nat → Bool) (nx ny : Int) : Nat :=
  if 0 ≤ nx ∧ nx < 4 ∧ 0 ≤ ny ∧ ny < 4 ∧ cells ny.toNat nx.toNat = true then 1
  else 0

/-- `Universe::count_neighbors_array`: the dy/dx double loop over the eight
neighbors, unrolled in the source's iteration order (dy = -1, 0, 1 outer;
dx = -1, 0, 1 inner; (0,0) skipped). -/
def count_neighbors_array (cells : Nat → Nat → Bool) (x y : Nat) : Nat :=
  nbr cells ((x : Int) - 1) ((y : Int) - 1) + nbr cells (x : Int) ((y : Int) - 1) +
    nbr cells ((x : Int) + 1) ((y : Int) - 1) +
    nbr cells ((x : Int) - 1) (y : Int) + nbr cells ((x : Int) + 1) (y : Int) +
    nbr cells ((x : Int) - 1) ((y : Int) + 1) + nbr cells (x : Int) ((y : Int) + 1) +
    nbr cells ((x : Int) + 1) ((y : Int) + 1)

/-- The `match (cells[cy][cx], neighbors)` arms of `Universe::compute_level2`:
survive on 2 or 3, birth on exactly 3, else dead. -/
def life_match (alive : Bool) (neighbors : Nat) : Bool :=
  match alive, neighbors with
  | true, 2 => true
  | true, 3 => true
  | false, 3 => true
  | _, _ => false

/-- `Universe::compute_level2`: read the 16 cells of a level-2 node, apply
the rule to the inner 2x2 (grid offsets (1,1) to (2,2)), and assemble the
level-1 result (`result[0][0]` = nw, `result[0][1]` = ne, `result[1][0]` =
sw, `result[1][1]` = se). -/
def compute_level2 (n : Node) : Node :=
  let cells := extract_grid n
  let res : Nat → Nat → Bool := fun y x =>
    life_match (cells (y + 1) (x + 1)) (count_neighbors_array cells (x + 1) (y + 1))
  .inner (.leaf (res 0 0)) (.leaf (res 0 1)) (.leaf (res 1 0)) (.leaf (res 1 1))

/-- `Universe::next_generation_single`, with fuel; each recursive call is on
a node one level lower, so fuel = level suffices (see
`next_generation_single`). -/
def next_gen_aux : Nat → Node → Node
  | 0, n => n
  | fuel + 1, n =>
      if n.level = 2 then compute_level2 n
      else
        match n with
        | .leaf a => .leaf a
        | .inner nw ne sw se =>
            let c_nw_ne := center_subnode_horizontal nw ne
            let c_nw_sw := center_subnode_vertical nw sw
            let c_ne_se := center_subnode_vertical ne se
            let c_sw_se := center_subnode_horizontal sw se
            let c := center_node (.inner nw ne sw se)
            let n00 := next_gen_aux fuel nw
            let n01 := next_gen_aux fuel c_nw_ne
            let n02 := next_gen_aux fuel ne
            let n10 := next_gen_aux fuel c_nw_sw
            let n11 := next_gen_aux fuel c
            let n12 := next_gen_aux fuel c_ne_se
            let n20 := next_gen_aux fuel sw
            let n21 := next_gen_aux fuel c_sw_se
            let n22 := next_gen_aux fuel se
            let result_nw := Node.inner n00.q_se n01.q_sw n10.q_ne n11.q_nw
            let result_ne := Node.inner n01.q_se n02.q_sw n11.q_ne n12.q_nw
            let result_sw := Node.inner n10.q_se n11.q_sw n20.q_ne n21.q_nw
            let result_se := Node.inner n11.q_se n12.q_sw n21.q_ne n22.q_nw
            Node.inner result_nw result_ne result_sw result_se

/-- `Universe::next_generation_single`: the "one generation forward, centre
square" node, one level below the input. -/
def next_generation_single (n : Node) : Node := next_gen_aux n.level n

/-- The body of `Universe::step` after the expansion loop: evolve the root,
then re-embed the level-(L-1) result at level L by padding its four
quadrants with empty borders, and bump the generation.  The leaf arm is the
source's `unreachable!()`, made total. -/
def step_core (u : Universe) : Universe :=
  match next_generation_single u.root with
  | .leaf _ => { u with generation := u.generation + 1 }
  | .inner r_nw r_ne r_sw r_se =>
      let border := get_empty r_nw.level
      let new_nw := Node.inner border border border r_nw
      let new_ne := Node.inner border border r_ne border
      let new_sw := Node.inner border r_sw border border
      let new_se := Node.inner r_se border border border
      { root := .inner new_nw new_ne new_sw new_se,
        generation := u.generation + 1 }

/-- The `while self.root.level < 3` loop at the head of `Universe::step`:
if the population is zero it only bumps the generation, otherwise it
expands.  Each `expand` raises the level by exactly one, so from any level
at most 3 iterations run; with fuel 3 the fuel-0 fallback (handing over to
`step_core`) is reached exactly when the level is already ≥ 3, which is what
the source does. -/
def step_aux : Nat → Universe → Universe
  | 0, u => step_core u
  | fuel + 1, u =>
      if u.root.level < 3 then
        if u.root.population = 0 then { u with generation := u.generation + 1 }
        else step_aux fuel (expand u)
      else step_core u

/-- `Universe::step`: advance by exactly one generation.  NOTE: the source's
guard loop checks only `level < 3`; it never tests whether the root's outer
ring is populated. -/
def step (u : Universe) : Universe := step_aux 3 u

section StepBorder

/-- A level-3 universe (window `[-4, 4)`) holding a 2x2 block - a Conway
still life - at `(2, 2), (3, 2), (2, 3), (3, 3)`, i.e. in the root's outer
ring (outside the centred half `[-2, 2)`). -/
def block_universe : Universe :=
  set_cell (set_cell (set_cell (set_cell (Universe.new 3) 2 2 true) 3 2 true)
    2 3 true) 3 3 true

/-- C1 (the code violates it): `step` is invoked on this root even though its
outer ring is populated - the source's guard loop checks only `level < 3` and
never the border population - and the re-embedding of the level-(L-1) centre
result silently drops all four live cells: a still-life block of population 4
becomes the empty universe.  One Conway generation of a block keeps the
block, so the root's window no longer contains the cells that were alive
before stepping. -/
theorem step_drops_live_border_cells :
    block_universe.root.population = 4 ∧
      get_cell block_universe 2 2 = true ∧
      block_universe.root.level = 3 ∧
      (step block_universe).root.population = 0 ∧
      get_cell (step block_universe) 2 2 = false ∧
      (step block_universe).generation = block_universe.generation + 1 := by
  decide

end StepBorder

section Memoization

/-- Call-count instrumentation of `next_gen_aux`: how many times the
recursion of `next_generation_single` is entered with an argument
structurally equal to `target` (structural equality coincides with canonical
node identity under hash-consing; see the arena section).  It mirrors
`next_gen_aux` invocation for invocation: the node itself counts as one
call, and the recursive case adds the calls made on the nine regions. -/
def next_gen_calls_aux (target : Node) : Nat → Node → Nat
  | 0, n => if n = target then 1 else 0
  | fuel + 1, n =>
      (if n = target then 1 else 0) +
        (if n.level = 2 then 0
         else
           match n with
           | .leaf _ => 0
           | .inner nw ne sw se =>
               next_gen_calls_aux target fuel nw +
                 next_gen_calls_aux target fuel (center_subnode_horizontal nw ne) +
                 next_gen_calls_aux target fuel ne +
                 next_gen_calls_aux target fuel (center_subnode_vertical nw sw) +
                 next_gen_calls_aux target fuel (center_node (.inner nw ne sw se)) +
                 next_gen_calls_aux target fuel (center_subnode_vertical ne se) +
                 next_gen_calls_aux target fuel sw +
                 next_gen_calls_aux target fuel (center_subnode_horizontal sw se) +
                 next_gen_calls_aux target fuel se)

/-- Number of evolution calls on `target` during `next_generation_single n`. -/
def next_gen_calls (target n : Node) : Nat := next_gen_calls_aux target n.level n

/-- Counterexample to C3 as stated: evolving the canonical empty level-3
node calls the evolution function on the canonical empty level-2 subtree
nine times - there is no `result_cache` field on `Universe` and
`next_generation_single` performs no memoization, so a given canonical
subtree is *not* evolved at most once. -/
theorem next_gen_calls_empty_nine :
    next_gen_calls (get_empty 2) (get_empty 3) = 9 ∧
      ¬(next_gen_calls (get_empty 2) (get_empty 3) ≤ 1) := by
  decide

/-- C3 amended: the `Universe` state carries only `root`, `cache` and
`generation` - no `result_cache` - and the recursion of
`next_generation_single` is unmemoized, so a canonical level-2 subtree that
fills all four quadrants of a level-3 node is evolved at least four times
(once per corner region) in a single call. -/
theorem next_gen_unmemoized (c : Node) (h2 : c.level = 2) :
    4 ≤ next_gen_calls c (.inner c c c c) := by
  have hlv : (Node.inner c c c c).level = 3 := by simp [Node.level, h2]
  have hc : next_gen_calls_aux c 2 c = 1 := by
    show next_gen_calls_aux c (1 + 1) c = 1
    simp [next_gen_calls_aux, h2]
  unfold next_gen_calls
  rw [hlv]
  show 4 ≤
    (if Node.inner c c c c = c then 1 else 0) +
      (if (Node.inner c c c c).level = 2 then 0
       else
         next_gen_calls_aux c 2 c +
           next_gen_calls_aux c 2 (center_subnode_horizontal c c) +
           next_gen_calls_aux c 2 c +
           next_gen_calls_aux c 2 (center_subnode_vertical c c) +
           next_gen_calls_aux c 2 (center_node (.inner c c c c)) +
           next_gen_calls_aux c 2 (center_subnode_vertical c c) +
           next_gen_calls_aux c 2 c +
           next_gen_calls_aux c 2 (center_subnode_horizontal c c) +
           next_gen_calls_aux c 2 c)
  rw [if_neg (by rw [hlv]; norm_num : ¬(Node.inner c c c c).level = 2), hc]
  omega

/-- Witness for the amended C3 at the concrete empty level-2 node. -/
theorem next_gen_unmemoized_witness :
    (get_empty 2).level = 2 ∧
      4 ≤ next_gen_calls (get_empty 2)
        (.inner (get_empty 2) (get_empty 2) (get_empty 2) (get_empty 2)) :=
  ⟨by decide, next_gen_unmemoized (get_empty 2) (by decide)⟩

end Memoization

section LevelCap

/-!
For extreme coordinates the claim is about what happens when the window
level approaches the i64 limit, so here the window arithmetic of
`Universe::set_cell` is modelled with exact i64 semantics: the shifted
value wraps to two's complement (`1i64 << 63 = i64::MIN`), and a shift
amount of 64 or more is an overflow of the shift itself - a panic in debug
builds and a masked shift in release - never an error value returned to
the caller.
-/

/-- Two's-complement interpretation of the low 64 bits of an integer: the
value of the i64 with the same bit pattern. -/
def wrap_i64 (n : Int) : Int := (n + 2 ^ 63) % 2 ^ 64 - 2 ^ 63

/-- The source's `1i64 << level` for shift amounts below 64: the power of
two wrapped to i64 (at level 63 this is `i64::MIN`, a negative value).
For level ≥ 64 the source's shift amount itself overflows, so the
expression has no i64 value; `expand_level_i64` handles that boundary
explicitly and never relies on this definition there. -/
def shl1_i64 (level : Nat) : Int := wrap_i64 (2 ^ level)

/-- `let half_size = size / 2` of `Universe::set_cell` under i64
arithmetic.  Rust's truncating i64 division and Lean's integer division
agree here: the dividend is (plus or minus) a power of two, so the
quotient is exact. -/
def half_size_i64 (level : Nat) : Int := shl1_i64 level / 2

/-- The out-of-window test at the head of `Universe::set_cell`, with the
window bounds computed in i64 exactly as the source computes them. -/
def out_of_window_i64 (level : Nat) (x y : Int) : Prop :=
  x < -half_size_i64 level ∨ x ≥ half_size_i64 level ∨
    y < -half_size_i64 level ∨ y ≥ half_size_i64 level

instance (level : Nat) (x y : Int) : Decidable (out_of_window_i64 level x y) := by
  unfold out_of_window_i64
  infer_instance

/-- The expand-and-retry loop of `Universe::set_cell` under i64 window
arithmetic, tracking the root level (each `expand` raises it by exactly
one; `expand_level`).  The source evaluates `1i64 << level` before the
window check, so once the level reaches 64 it performs a shift by 64 - an
i64 shift-amount overflow: a panic in debug builds, and under release
shift masking a window the coordinate never fits, so the loop never
terminates.  Both outcomes are modelled by `none`: the call does not
return normally, and in particular no error value is ever produced.
`some l` is the level at which the loop stops and performs the write.
The fuel-0 fallback is unreachable for the fuel the theorems supply. -/
def expand_level_i64 : Nat → Nat → Int → Int → Option Nat
  | 0, _, _, _ => none
  | fuel + 1, level, x, y =>
      if 64 ≤ level then none
      else if out_of_window_i64 level x y then
        expand_level_i64 fuel (level + 1) x y
      else some level

/-- Counterexample to C7: the mutation is never rejected and no level cap
exists.  Writing at `x = 2 ^ 62` from the smallest universe (level 3), the
i64 window check demands a further expansion at every level from 3 through
63 - in particular at the claimed cap of 62 and even at 63, where the
wrapped half-window is negative - so the loop never settles at a level at
most 62; it runs into the overflowing level-64 shift (`none`) instead of
failing with a NotRepresentable error. -/
theorem set_cell_no_level_cap :
    expand_level_i64 100 3 (2 ^ 62) 0 = none ∧
      ∀ l : Fin 64, 3 ≤ l.val → out_of_window_i64 l.val (2 ^ 62) 0 := by
  decide

/-- C7 amended: the implementation has no NotRepresentable error and no
level cap; on a coordinate needing a window past level 62 it keeps
expanding - at level 62 the half-window `2 ^ 61` is still too small, and at
level 63 the i64 `1 << level` wraps to a negative half-window (`-(2^62)`)
that still demands expansion - until the source reaches a level-64 shift,
an i64 shift-amount overflow (debug panic; in release the masked shift
leaves the loop without a fitting window, so it never terminates), rather
than rejecting the expansion. -/
theorem set_cell_extreme_coordinate_overflows :
    half_size_i64 62 = 2 ^ 61 ∧
      half_size_i64 63 = -(2 ^ 62) ∧
      out_of_window_i64 62 (2 ^ 62) 0 ∧
      out_of_window_i64 63 (2 ^ 62) 0 ∧
      expand_level_i64 100 3 (2 ^ 62) 0 = none := by
  decide

end LevelCap

section Level2Conway

/-- The claim's B3/S23 rule, written independently of the source's `match`:
a live cell survives with 2 or 3 live neighbors, a dead cell is born with
exactly 3, everything else is dead. -/
def conway_b3s23 (alive : Bool) (neighbors : Nat) : Bool :=
  (alive && (neighbors == 2 || neighbors == 3)) || (!alive && neighbors == 3)

/-- Independent reading of cell `(x, y)` of a node's grid (column `x`, row
`y`, the node's own coordinate descent placed at origin 0). -/
def cell_at (n : Node) (x y : Nat) : Bool := get_cell_recursive n x y 0 0

/-- The claim's neighbor count at `(x, y)`: live cells among the eight
neighbors that fall inside the 4x4 grid, read through `cell_at`. -/
def live_neighbors (n : Node) (x y : Nat) : Nat :=
  let cells : Nat → Nat → Bool := fun yy xx => cell_at n xx yy
  nbr cells ((x : Int) - 1) ((y : Int) - 1) + nbr cells (x : Int) ((y : Int) - 1) +
    nbr cells ((x : Int) + 1) ((y : Int) - 1) +
    nbr cells ((x : Int) - 1) (y : Int) + nbr cells ((x : Int) + 1) (y : Int) +
    nbr cells ((x : Int) - 1) ((y : Int) + 1) + nbr cells (x : Int) ((y : Int) + 1) +
    nbr cells ((x : Int) + 1) ((y : Int) + 1)

theorem nbr_le_one (cells : Nat → Nat → Bool) (nx ny : Int) :
    nbr cells nx ny ≤ 1 := by
  unfold nbr; split <;> omega

theorem count_neighbors_le (cells : Nat → Nat → Bool) (x y : Nat) :
    count_neighbors_array cells x y ≤ 8 := by
  unfold count_neighbors_array
  have h1 := nbr_le_one cells ((x : Int) - 1) ((y : Int) - 1)
  have h2 := nbr_le_one cells (x : Int) ((y : Int) - 1)
  have h3 := nbr_le_one cells ((x : Int) + 1) ((y : Int) - 1)
  have h4 := nbr_le_one cells ((x : Int) - 1) (y : Int)
  have h5 := nbr_le_one cells ((x : Int) + 1) (y : Int)
  have h6 := nbr_le_one cells ((x : Int) - 1) ((y : Int) + 1)
  have h7 := nbr_le_one cells (x : Int) ((y : Int) + 1)
  have h8 := nbr_le_one cells ((x : Int) + 1) ((y : Int) + 1)
  omega

/-- The source's `match` arms coincide with the B3/S23 boolean rule on every
realizable neighbor count. -/
theorem life_match_eq_conway (a : Bool) (c : Nat) (hc : c ≤ 8) :
    life_match a c = conway_b3s23 a c := by
  cases a <;> interval_cases c <;> rfl

theorem level0_shape (n : Node) (h : n.level = 0) : ∃ a, n = .leaf a := by
  cases n with
  | leaf a => exact ⟨a, rfl⟩
  | inner nw ne sw se => simp [Node.level] at h

theorem level1_shape (n : Node) (hw : n.wf) (h : n.level = 1) :
    ∃ a b c d : Bool, n = .inner (.leaf a) (.leaf b) (.leaf c) (.leaf d) := by
  cases n with
  | leaf a => simp [Node.level] at h
  | inner nw ne sw se =>
      obtain ⟨h1, h2, h3, _, _, _, _⟩ := hw
      simp only [Node.level] at h
      have h0 : nw.level = 0 := by omega
      obtain ⟨a, rfl⟩ := level0_shape nw h0
      obtain ⟨b, rfl⟩ := level0_shape ne (h1.trans h0)
      obtain ⟨c, rfl⟩ := level0_shape sw (h2.trans h0)
      obtain ⟨d, rfl⟩ := level0_shape se (h3.trans h0)
      exact ⟨a, b, c, d, rfl⟩

set_option maxHeartbeats 1600000 in
/-- C2: on every level-2 node, `compute_level2` returns the level-1 node
whose four cells are the B3/S23 update of the inner 2x2 cells (grid offsets
(1,1) to (2,2)), with cell values and neighbor counts read independently
through the node's coordinate descent (`cell_at`). -/
theorem compute_level2_conway (n : Node) (hw : n.wf) (h2 : n.level = 2) :
    compute_level2 n =
      .inner (.leaf (conway_b3s23 (cell_at n 1 1) (live_neighbors n 1 1)))
             (.leaf (conway_b3s23 (cell_at n 2 1) (live_neighbors n 2 1)))
             (.leaf (conway_b3s23 (cell_at n 1 2) (live_neighbors n 1 2)))
             (.leaf (conway_b3s23 (cell_at n 2 2) (live_neighbors n 2 2))) := by
  cases n with
  | leaf a => simp [Node.level] at h2
  | inner qnw qne qsw qse =>
      obtain ⟨e1, e2, e3, w1, w2, w3, w4⟩ := hw
      simp only [Node.level] at h2
      have h21 : qnw.level = 1 := by omega
      obtain ⟨b00, b01, b10, b11, rfl⟩ := level1_shape qnw w1 h21
      obtain ⟨b02, b03, b12, b13, rfl⟩ := level1_shape qne w2 (e1.trans h21)
      obtain ⟨b20, b21, b30, b31, rfl⟩ := level1_shape qsw w3 (e2.trans h21)
      obtain ⟨b22, b23, b32, b33, rfl⟩ := level1_shape qse w4 (e3.trans h21)
      have hle := fun (x y : Nat) => count_neighbors_le
        (extract_grid (.inner
          (.inner (.leaf b00) (.leaf b01) (.leaf b10) (.leaf b11))
          (.inner (.leaf b02) (.leaf b03) (.leaf b12) (.leaf b13))
          (.inner (.leaf b20) (.leaf b21) (.leaf b30) (.leaf b31))
          (.inner (.leaf b22) (.leaf b23) (.leaf b32) (.leaf b33)))) x y
      simp only [compute_level2]
      rw [life_match_eq_conway _ _ (hle 1 1), life_match_eq_conway _ _ (hle 2 1),
        life_match_eq_conway _ _ (hle 1 2), life_match_eq_conway _ _ (hle 2 2)]
      simp [count_neighbors_array, live_neighbors, nbr, extract_grid, cell_at,
        get_cell_recursive, Node.is_alive, Node.level]

/-- Witness for C2 at a concrete input: the empty level-2 node (every cell
dead, so every output cell of the update is dead), which discharges the
well-formedness and level hypotheses concretely. -/
theorem compute_level2_conway_witness :
    (get_empty 2).wf ∧ (get_empty 2).level = 2 ∧
      compute_level2 (get_empty 2) =
        .inner (.leaf (conway_b3s23 (cell_at (get_empty 2) 1 1)
            (live_neighbors (get_empty 2) 1 1)))
          (.leaf (conway_b3s23 (cell_at (get_empty 2) 2 1)
            (live_neighbors (get_empty 2) 2 1)))
          (.leaf (conway_b3s23 (cell_at (get_empty 2) 1 2)
            (live_neighbors (get_empty 2) 1 2)))
          (.leaf (conway_b3s23 (cell_at (get_empty 2) 2 2)
            (live_neighbors (get_empty 2) 2 2))) :=
  ⟨by decide, by decide,
    compute_level2_conway (get_empty 2) (by decide) (by decide)⟩

end Level2Conway

/-!
The identity layer: `NodeCache` as an arena.  The Rust cache hands out
`Rc<Node>` values; "identity" is the allocation address (`Rc::as_ptr`).
Cached nodes are immutable and never freed, so addresses are equivalent to
stable indices into an arena of allocations, which is how the cache is
modelled here: `identity` = index into `nodes`.  The `inner_cache` HashMap
keyed by the four child pointers holds exactly the inner nodes ever created,
each inserted under its children key at creation, so a map lookup succeeds
exactly when some arena slot holds an identical `inner` entry.
-/

/-- Stored shape of one cached allocation: a leaf cell, or an inner node
holding the identities (arena indices) of its four children, exactly as the
Rust `Inner` holds four `Rc` pointers. -/
inductive NodeData where
  | leaf (alive : Bool)
  | inner (nw ne sw se : Nat)
deriving DecidableEq, Repr

/-- The hash-consing cache (`NodeCache` in the source), as an arena. -/
structure NodeCache where
  nodes : List NodeData
deriving DecidableEq, Repr

/-- `NodeCache::new`: the two pre-allocated leaves, dead at identity 0 and
alive at identity 1 (`leaves[alive as usize]`). -/
def NodeCache.new : NodeCache := ⟨[.leaf false, .leaf true]⟩

/-- `NodeCache::get_leaf`: returns one of the two singletons; no state
change. -/
def NodeCache.get_leaf (_c : NodeCache) (alive : Bool) : Nat :=
  if alive then 1 else 0

/-- Index of the first arena slot holding exactly this data, if any -
the model of the `inner_cache` HashMap lookup. -/
def find_slot : List NodeData → NodeData → Option Nat
  | [], _ => none
  | d :: rest, k =>
      if d = k then some 0
      else
        match find_slot rest k with
        | some i => some (i + 1)
        | none => none

/-- `NodeCache::get_inner`: return the unique cached inner node with these
four children, creating and caching it at a fresh identity if absent. -/
def NodeCache.get_inner (c : NodeCache) (nw ne sw se : Nat) : Nat × NodeCache :=
  match find_slot c.nodes (.inner nw ne sw se) with
  | some i => (i, c)
  | none => (c.nodes.length, ⟨c.nodes ++ [.inner nw ne sw se]⟩)

/-- `NodeCache::get_empty` on the arena: the canonical all-dead node at a
level, built from the dead leaf by repeated `get_inner`. -/
def NodeCache.get_empty (c : NodeCache) : Nat → Nat × NodeCache
  | 0 => (c.get_leaf false, c)
  | l + 1 =>
      let r := c.get_empty l
      r.2.get_inner r.1 r.1 r.1 r.1

/-- Structural content denoted by arena identity `i`: the tree the Rust node
at that address represents.  On the caches actually reachable (see `Reached`)
an inner slot's children always have smaller indices, so the recursion
terminates; the dead-leaf fallbacks are never reached there. -/
def NodeCache.content (c : NodeCache) (i : Nat) : Node :=
  match c.nodes[i]? with
  | some (.leaf a) => .leaf a
  | some (.inner a b d e) =>
      if hlt : a < i ∧ b < i ∧ d < i ∧ e < i then
        .inner (c.content a) (c.content b) (c.content d) (c.content e)
      else .leaf false
  | none => .leaf false
termination_by i
decreasing_by all_goals omega

/-- Level of the node at identity `i` (the Rust stores it; here derived from
the content). -/
def NodeCache.level_of (c : NodeCache) (i : Nat) : Nat := (c.content i).level

/-- Cache states reachable through the construction API.  Every node the
`Universe` code ever creates goes through `get_leaf` (no state change),
`get_inner` - always with four already-cached children, whose level equality
`Node::inner` asserts - or `get_empty`; so every cache state any `Universe`
operation (`new`, `set_cell`, `expand`, `step`, ...) can produce is
`Reached`, and a property of all reached states is preserved by every
`Universe` operation. -/
inductive Reached : NodeCache → Prop where
  | init : Reached NodeCache.new
  | step_inner (c : NodeCache) (nw ne sw se : Nat) :
      Reached c →
      nw < c.nodes.length → ne < c.nodes.length →
      sw < c.nodes.length → se < c.nodes.length →
      c.level_of ne = c.level_of nw → c.level_of sw = c.level_of nw →
      c.level_of se = c.level_of nw →
      Reached (c.get_inner nw ne sw se).2
  | step_empty (c : NodeCache) (l : Nat) :
      Reached c → Reached (c.get_empty l).2

/-- Canonicalization invariant of the arena: the two leaf singletons sit at
identities 0 and 1 and are the only leaves, every inner slot's children
precede it, and no two slots hold the same inner children key (the HashMap
deduplicates). -/
def NodeCache.Inv (c : NodeCache) : Prop :=
  c.nodes[0]? = some (NodeData.leaf false) ∧
    c.nodes[1]? = some (NodeData.leaf true) ∧
    (∀ (i : Nat) (a : Bool), c.nodes[i]? = some (NodeData.leaf a) →
      (i = 0 ∧ a = false) ∨ (i = 1 ∧ a = true)) ∧
    (∀ i a b d e : Nat, c.nodes[i]? = some (NodeData.inner a b d e) →
      a < i ∧ b < i ∧ d < i ∧ e < i) ∧
    (∀ i j a b d e : Nat, c.nodes[i]? = some (NodeData.inner a b d e) →
      c.nodes[j]? = some (NodeData.inner a b d e) → i = j)

section CacheInvariant

theorem find_slot_none_spec (l : List NodeData) (k : NodeData)
    (h : find_slot l k = none) : ∀ i : Nat, l[i]? ≠ some k := by
  induction l with
  | nil => intro i; simp
  | cons d rest ih =>
      unfold find_slot at h
      split_ifs at h with hd
      rcases hr : find_slot rest k with _ | j
      · intro i
        match i with
        | 0 => simpa using fun he => hd he
        | i + 1 => simpa using ih hr i
      · rw [hr] at h
        simp at h

theorem find_slot_some_spec (l : List NodeData) (k : NodeData) (i : Nat)
    (h : find_slot l k = some i) : i < l.length ∧ l[i]? = some k := by
  induction l generalizing i with
  | nil => simp [find_slot] at h
  | cons d rest ih =>
      unfold find_slot at h
      split_ifs at h with hd
      · obtain rfl : (0 : Nat) = i := by simpa using h
        subst hd
        simp
      · rcases hr : find_slot rest k with _ | j
        · rw [hr] at h; simp at h
        · rw [hr] at h
          obtain rfl : j + 1 = i := by simpa using h
          obtain ⟨hj1, hj2⟩ := ih j hr
          constructor
          · simpa using hj1
          · simpa using hj2

/-- Lookup in an arena extended by one slot: either the index is an old slot
with the old entry, or it is exactly the fresh slot holding the new entry. -/
theorem concat_getElem?_cases (l : List NodeData) (k x : NodeData) (i : Nat)
    (h : (l ++ [k])[i]? = some x) :
    (i < l.length ∧ l[i]? = some x) ∨ (i = l.length ∧ x = k) := by
  by_cases hi : i < l.length
  · left
    refine ⟨hi, ?_⟩
    rwa [List.getElem?_append, if_pos hi] at h
  · right
    rw [List.getElem?_append, if_neg hi] at h
    rcases hsub : i - l.length with _ | m
    · rw [hsub] at h
      simp only [List.getElem?_cons_zero, Option.some_inj] at h
      exact ⟨by omega, h.symm⟩
    · rw [hsub] at h
      simp at h

theorem inv_get_inner (c : NodeCache) (a b d e : Nat) (hI : c.Inv)
    (ha : a < c.nodes.length) (hb : b < c.nodes.length)
    (hd : d < c.nodes.length) (he : e < c.nodes.length) :
    (c.get_inner a b d e).2.Inv := by
  unfold NodeCache.get_inner
  rcases hf : find_slot c.nodes (.inner a b d e) with _ | i
  · obtain ⟨h0, h1, hleaf, hchild, hdup⟩ := hI
    have hnot := find_slot_none_spec _ _ hf
    refine ⟨?_, ?_, ?_, ?_, ?_⟩
    · show (c.nodes ++ [NodeData.inner a b d e])[0]? = _
      rw [List.getElem?_append, if_pos (by omega)]
      exact h0
    · show (c.nodes ++ [NodeData.inner a b d e])[1]? = _
      have h1lt : 1 < c.nodes.length := (List.getElem?_eq_some.mp h1).1
      rw [List.getElem?_append, if_pos h1lt]
      exact h1
    · intro i aa h
      rcases concat_getElem?_cases _ _ _ _ h with ⟨_, hold⟩ | ⟨_, hkey⟩
      · exact hleaf i aa hold
      · simp at hkey
    · intro i aa bb dd ee h
      rcases concat_getElem?_cases _ _ _ _ h with ⟨_, hold⟩ | ⟨hil, hkey⟩
      · exact hchild i aa bb dd ee hold
      · obtain ⟨rfl, rfl, rfl, rfl⟩ : aa = a ∧ bb = b ∧ dd = d ∧ ee = e := by
          simpa using hkey
        omega
    · intro i j aa bb dd ee h h'
      rcases concat_getElem?_cases _ _ _ _ h with ⟨_, hold⟩ | ⟨hil, hkey⟩ <;>
        rcases concat_getElem?_cases _ _ _ _ h' with ⟨_, hold'⟩ | ⟨hjl, hkey'⟩
      · exact hdup i j aa bb dd ee hold hold'
      · obtain ⟨rfl, rfl, rfl, rfl⟩ : aa = a ∧ bb = b ∧ dd = d ∧ ee = e := by
          simpa using hkey'
        exact absurd hold (hnot i)
      · obtain ⟨rfl, rfl, rfl, rfl⟩ : aa = a ∧ bb = b ∧ dd = d ∧ ee = e := by
          simpa using hkey
        exact absurd hold' (hnot j)
      · omega
  · simpa using hI

theorem get_inner_id_lt (c : NodeCache) (a b d e : Nat) :
    (c.get_inner a b d e).1 < (c.get_inner a b d e).2.nodes.length := by
  unfold NodeCache.get_inner
  rcases hf : find_slot c.nodes (.inner a b d e) with _ | i
  · simp
  · simpa using (find_slot_some_spec _ _ _ hf).1

theorem get_empty_inv (c : NodeCache) (hI : c.Inv) (l : Nat) :
    (c.get_empty l).2.Inv ∧ (c.get_empty l).1 < (c.get_empty l).2.nodes.length := by
  induction l with
  | zero =>
      refine ⟨hI, ?_⟩
      show NodeCache.get_leaf c false < c.nodes.length
      have h0lt : 0 < c.nodes.length := (List.getElem?_eq_some.mp hI.1).1
      simpa [NodeCache.get_leaf] using h0lt
  | succ l ih =>
      obtain ⟨ih1, ih2⟩ := ih
      exact ⟨inv_get_inner _ _ _ _ _ ih1 ih2 ih2 ih2 ih2, get_inner_id_lt _ _ _ _ _⟩

theorem inv_of_reached : ∀ c : NodeCache, Reached c → c.Inv := by
  intro c hr
  induction hr with
  | init =>
      refine ⟨rfl, rfl, ?_, ?_, ?_⟩
      · intro i a h
        match i with
        | 0 => simp only [NodeCache.new] at h; left; simpa using h.symm
        | 1 => simp only [NodeCache.new] at h; right; simpa using h.symm
        | i + 2 => simp [NodeCache.new] at h
      · intro i a b d e h
        match i with
        | 0 => simp [NodeCache.new] at h
        | 1 => simp [NodeCache.new] at h
        | i + 2 => simp [NodeCache.new] at h
      · intro i j a b d e h h'
        match i with
        | 0 => simp [NodeCache.new] at h
        | 1 => simp [NodeCache.new] at h
        | i + 2 => simp [NodeCache.new] at h
  | step_inner c a b d e _ ha hb hd he _ _ _ ih =>
      exact inv_get_inner c a b d e ih ha hb hd he
  | step_empty c l _ ih =>
      exact (get_empty_inv c ih l).1

end CacheInvariant

section CacheCanonical

theorem content_of_leaf (c : NodeCache) (i : Nat) (a : Bool)
    (h : c.nodes[i]? = some (NodeData.leaf a)) : c.content i = .leaf a := by
  unfold NodeCache.content
  simp [h]

theorem content_of_inner (c : NodeCache) (i a b d e : Nat)
    (h : c.nodes[i]? = some (NodeData.inner a b d e))
    (hlt : a < i ∧ b < i ∧ d < i ∧ e < i) :
    c.content i = .inner (c.content a) (c.content b) (c.content d)
      (c.content e) := by
  rw [NodeCache.content]
  simp [h, hlt]

/-- Injectivity of `content` on valid identities of a cache satisfying the
invariant: structurally equal cached nodes have the same identity. -/
theorem content_inj (c : NodeCache) (hI : c.Inv) :
    ∀ N i j : Nat, i + j ≤ N → i < c.nodes.length → j < c.nodes.length →
      c.content i = c.content j → i = j := by
  intro N
  induction N with
  | zero =>
      intro i j hij _ _ _
      omega
  | succ N ih =>
      intro i j hij hi hj hc
      obtain ⟨-, -, hleaf, hchild, hdup⟩ := hI
      have hgi : c.nodes[i]? = some c.nodes[i] := List.getElem?_eq_getElem hi
      have hgj : c.nodes[j]? = some c.nodes[j] := List.getElem?_eq_getElem hj
      rcases hdi : c.nodes[i] with a | ⟨ai, bi, di, ei⟩ <;>
        rcases hdj : c.nodes[j] with a' | ⟨aj, bj, dj, ej⟩
      · rw [hdi] at hgi
        rw [hdj] at hgj
        rw [content_of_leaf c i a hgi, content_of_leaf c j a' hgj] at hc
        obtain rfl : a = a' := by simpa using hc
        rcases hleaf i a hgi with ⟨rfl, rfl⟩ | ⟨rfl, rfl⟩
        · rcases hleaf j false hgj with ⟨rfl, -⟩ | ⟨-, hcontra⟩
          · rfl
          · exact absurd hcontra (by decide)
        · rcases hleaf j true hgj with ⟨-, hcontra⟩ | ⟨rfl, -⟩
          · exact absurd hcontra (by decide)
          · rfl
      · rw [hdi] at hgi
        rw [hdj] at hgj
        rw [content_of_leaf c i a hgi,
          content_of_inner c j aj bj dj ej hgj (hchild j aj bj dj ej hgj)] at hc
        simp at hc
      · rw [hdi] at hgi
        rw [hdj] at hgj
        rw [content_of_leaf c j a' hgj,
          content_of_inner c i ai bi di ei hgi (hchild i ai bi di ei hgi)] at hc
        simp at hc
      · rw [hdi] at hgi
        rw [hdj] at hgj
        have hci := hchild i ai bi di ei hgi
        have hcj := hchild j aj bj dj ej hgj
        rw [content_of_inner c i ai bi di ei hgi hci,
          content_of_inner c j aj bj dj ej hgj hcj] at hc
        obtain ⟨h1, h2, h3, h4⟩ : c.content ai = c.content aj ∧
            c.content bi = c.content bj ∧ c.content di = c.content dj ∧
            c.content ei = c.content ej := by simpa [Node.inner.injEq] using hc
        obtain rfl : ai = aj := ih ai aj (by omega) (by omega) (by omega) h1
        obtain rfl : bi = bj := ih bi bj (by omega) (by omega) (by omega) h2
        obtain rfl : di = dj := ih di dj (by omega) (by omega) (by omega) h3
        obtain rfl : ei = ej := ih ei ej (by omega) (by omega) (by omega) h4
        exact hdup i j ai bi di ei hgi hgj

/-- C5: on every cache state reachable through the construction API (which
covers the node creation of every `Universe` operation), two cached
identities denote the same structural content exactly when they are the
same identity: structurally equal cached nodes are the same allocation. -/
theorem cache_content_eq_iff_identity (c : NodeCache) (hr : Reached c)
    (i j : Nat) (hi : i < c.nodes.length) (hj : j < c.nodes.length) :
    c.content i = c.content j ↔ i = j := by
  constructor
  · intro h
    exact content_inj c (inv_of_reached c hr) (i + j) i j le_rfl hi hj h
  · rintro rfl
    rfl

/-- Witness for C5 on the freshly created cache, comparing the two leaf
singletons. -/
theorem cache_content_eq_iff_identity_witness :
    (NodeCache.new.content 0 = NodeCache.new.content 1 ↔ (0 : Nat) = 1) :=
  cache_content_eq_iff_identity NodeCache.new Reached.init 0 1 (by decide)
    (by decide)

end CacheCanonical

/-!
The wasm-facing layer (`src/wasm.rs`).  `WasmUniverse` wraps a `Universe`;
its i32 coordinates are widened to i64 losslessly, so coordinates stay `Int`
here.
-/

section WasmLayer

/-- `WasmUniverse::set_cells` (`src/wasm.rs` 47-53): the loop
`for i in (0..len).step_by(2) { if i + 1 < len { set_cell(cells[i], cells[i+1], true) } }`,
written as recursion over the flat slice two elements at a time; a trailing
unpaired element fails the `i + 1 < len` guard and is ignored. -/
def set_cells : Universe → List Int → Universe
  | u, x :: y :: rest => set_cells (set_cell u x y true) rest
  | u, _ => u

/-- The coordinate pairs `(cells[2*i], cells[2*i+1])` with `2*i + 1 < len`. -/
def pair_list : List Int → List (Int × Int)
  | x :: y :: rest => (x, y) :: pair_list rest
  | _ => []

/-- `set_cell` keeps the root well-formed and at level ≥ 3. -/
theorem set_cell_preserves (u : Universe) (x y : Int) (v : Bool)
    (hw : u.root.wf) (h3 : 3 ≤ u.root.level) :
    (set_cell u x y v).root.wf ∧ 3 ≤ (set_cell u x y v).root.level := by
  unfold set_cell
  have h := set_cell_loop_spec (fit_level x y + 2) u x y v hw h3 (by omega)
  exact ⟨h.1, h.2.1⟩

/-- C9: `set_cells` sets alive exactly the paired coordinates: it equals the
fold of `set_cell(..., true)` over `pair_list` (so an odd trailing value is
silently ignored with no other state change), afterwards every paired
coordinate reads live, and every unpaired coordinate reads exactly as
before. -/
theorem set_cells_pairs_spec : ∀ (l : List Int) (u : Universe),
    u.root.wf → 3 ≤ u.root.level →
    (set_cells u l =
        (pair_list l).foldl (fun v p => set_cell v p.1 p.2 true) u ∧
      (∀ p ∈ pair_list l, get_cell (set_cells u l) p.1 p.2 = true) ∧
      ∀ x' y' : Int, (x', y') ∉ pair_list l →
        get_cell (set_cells u l) x' y' = get_cell u x' y')
  | [], u, hw, h3 => ⟨rfl, by simp [pair_list], fun x' y' _ => rfl⟩
  | [x], u, hw, h3 => ⟨rfl, by simp [pair_list], fun x' y' _ => rfl⟩
  | x :: y :: rest, u, hw, h3 => by
      have hp := set_cell_preserves u x y true hw h3
      have hframe := set_cell_get_cell_frame u x y true hw h3
      obtain ⟨ih1, ih2, ih3⟩ :=
        set_cells_pairs_spec rest (set_cell u x y true) hp.1 hp.2
      have hdef : set_cells u (x :: y :: rest) =
          set_cells (set_cell u x y true) rest := rfl
      refine ⟨?_, ?_, ?_⟩
      · rw [hdef, ih1]
        rfl
      · intro p hp'
        rcases List.mem_cons.mp hp' with rfl | hmem
        · by_cases hin : (x, y) ∈ pair_list rest
          · rw [hdef]
            exact ih2 (x, y) hin
          · rw [hdef]
            show get_cell (set_cells (set_cell u x y true) rest) x y = true
            rw [ih3 x y hin]
            exact hframe.1
        · rw [hdef]
          exact ih2 p hmem
      · intro x' y' hnot
        have h1 : (x', y') ∉ pair_list rest := fun hm =>
          hnot (List.mem_cons_of_mem _ hm)
        have h2 : ¬(x' = x ∧ y' = y) := by
          rintro ⟨rfl, rfl⟩
          exact hnot (List.mem_cons_self _ _)
        rw [hdef, ih3 x' y' h1, hframe.2 x' y' h2]

/-- Witness for C9: pairs (0,0) and (1,1) with an odd trailing 5. -/
theorem set_cells_pairs_spec_witness :
    get_cell (set_cells (Universe.new 3) [0, 0, 1, 1, 5]) 0 0 = true ∧
      get_cell (set_cells (Universe.new 3) [0, 0, 1, 1, 5]) 2 2 =
        get_cell (Universe.new 3) 2 2 := by
  have h := set_cells_pairs_spec [0, 0, 1, 1, 5] (Universe.new 3) (by decide)
    (by decide)
  exact ⟨h.2.1 (0, 0) (by decide), h.2.2 2 2 (by decide)⟩

/-- Inclusive integer range `a..=b` of the Rust `for` loops, as a list
(empty when `a > b`). -/
def int_range (a b : Int) : List Int :=
  (List.range (b + 1 - a).toNat).map (fun i => a + Int.ofNat i)

/-- `WasmUniverse::get_cells` (`src/wasm.rs` 56-67): `y` ascending outer
loop, `x` ascending inner loop, both bounds inclusive, pushing `x` then `y`
for each live cell. -/
def get_cells (u : Universe) (x_min y_min x_max y_max : Int) : List Int :=
  (int_range y_min y_max).flatMap fun y =>
    (int_range x_min x_max).flatMap fun x =>
      if get_cell u x y then [x, y] else []

/-- The claim's description of `get_cells`: enumerate the rectangle with all
four bounds inclusive in row-major order (y ascending outer, x ascending
inner), keep exactly the live cells, and flatten each kept cell to `x` then
`y`. -/
def get_cells_spec (u : Universe) (x_min y_min x_max y_max : Int) : List Int :=
  (((int_range y_min y_max).flatMap fun y =>
      (int_range x_min x_max).map fun x => (x, y)).filter
    (fun p => get_cell u p.1 p.2)).flatMap fun p => [p.1, p.2]

theorem mem_int_range (lo hi a : Int) :
    a ∈ int_range lo hi ↔ lo ≤ a ∧ a ≤ hi := by
  unfold int_range
  rw [List.mem_map]
  constructor
  · rintro ⟨i, hi', rfl⟩
    rw [List.mem_range] at hi'
    simp only [Int.ofNat_eq_natCast]
    omega
  · intro h
    refine ⟨(a - lo).toNat, ?_, ?_⟩
    · rw [List.mem_range]; omega
    · simp only [Int.ofNat_eq_natCast]; omega

theorem get_cells_row_eq (u : Universe) (y : Int) (xs : List Int) :
    (xs.flatMap fun x => if get_cell u x y then [x, y] else []) =
      ((xs.map fun x => (x, y)).filter (fun p => get_cell u p.1 p.2)).flatMap
        (fun p => [p.1, p.2]) := by
  induction xs with
  | nil => rfl
  | cons x xs ih =>
      simp only [List.flatMap_cons, List.map_cons, List.filter_cons]
      cases h : get_cell u x y <;> simp [h, ih]

/-- C10: `get_cells` treats all four bounds as inclusive and returns exactly
the live cells of the rectangle, flattened in row-major order (y ascending
outer, x ascending inner, `x` pushed before `y`): it equals the filtered
row-major enumeration, whose members are exactly the in-rectangle live
cells. -/
theorem get_cells_row_major (u : Universe) (x_min y_min x_max y_max : Int) :
    get_cells u x_min y_min x_max y_max =
        get_cells_spec u x_min y_min x_max y_max ∧
      ∀ x y : Int,
        ((x, y) ∈ (((int_range y_min y_max).flatMap fun yy =>
            (int_range x_min x_max).map fun xx => (xx, yy)).filter
            (fun p => get_cell u p.1 p.2)) ↔
          (x_min ≤ x ∧ x ≤ x_max ∧ y_min ≤ y ∧ y ≤ y_max ∧
            get_cell u x y = true)) := by
  constructor
  · unfold get_cells get_cells_spec
    generalize int_range y_min y_max = ys
    induction ys with
    | nil => rfl
    | cons y ys ih =>
        simp only [List.flatMap_cons, List.filter_append, List.flatMap_append]
        rw [ih]
        congr 1
        exact get_cells_row_eq u y _
  · intro x y
    simp only [List.mem_filter, List.mem_flatMap, List.mem_map, mem_int_range]
    constructor
    · rintro ⟨⟨yy, hyy, xx, hxx, hp⟩, hlive⟩
      obtain ⟨rfl, rfl⟩ : xx = x ∧ yy = y := by
        constructor <;> [exact congrArg Prod.fst hp; exact congrArg Prod.snd hp]
      refine ⟨hxx.1, hxx.2, hyy.1, hyy.2, by simpa using hlive⟩
    · rintro ⟨h1, h2, h3, h4, h5⟩
      exact ⟨⟨y, ⟨h3, h4⟩, x, ⟨h1, h2⟩, rfl⟩, by simpa using h5⟩

end WasmLayer


section RenderRegions

/-- Modelled from the spec: `Universe::collect_render_regions` is called by
`WasmUniverse::get_render_regions` (`src/wasm.rs` 84-108) but its definition
is absent from the sources under `src/`, so this follows the specification's
words (its render-region section): walk the quadtree; skip any node with
zero population and any node whose square does not intersect the view
rectangle (bounds taken inclusive); for a node whose side length
`2 ^ level` is at most `min_render_size` emit one `(x, y, size, density)`
tuple at its lower-left corner with `size` the side length and `density`
the population divided by the squared side; otherwise recurse into the four
children, each a half-side (`2 ^ (level - 1)`) further along.  A live leaf
reached with `min_render_size = 0` emits its own tuple with density 1, per
the specification's "leaves that are alive under this policy produce
density 1.0".  Density is modelled as a rational. -/
def collect_rec : Node → Int → Int → Int → Int → Int → Int → Nat →
    List (Int × Int × Int × ℚ)
  | n, x, y, vx0, vy0, vx1, vy1, min_size =>
    if n.population = 0 then []
    else if x + 2 ^ n.level ≤ vx0 ∨ vx1 < x ∨ y + 2 ^ n.level ≤ vy0 ∨
        vy1 < y then []
    else if (2 ^ n.level : Int) ≤ (min_size : Int) then
      [(x, y, 2 ^ n.level, (n.population : ℚ) / (((2 ^ n.level : Int)) : ℚ) ^ 2)]
    else
      match n with
      | .leaf _ => [(x, y, 1, 1)]
      | .inner nw ne sw se =>
          collect_rec nw x y vx0 vy0 vx1 vy1 min_size ++
            collect_rec ne (x + 2 ^ nw.level) y vx0 vy0 vx1 vy1 min_size ++
            collect_rec sw x (y + 2 ^ nw.level) vx0 vy0 vx1 vy1 min_size ++
            collect_rec se (x + 2 ^ nw.level) (y + 2 ^ nw.level) vx0 vy0 vx1
              vy1 min_size

/-- Modelled from the spec (see `collect_rec`): the walk starts at the root,
whose lower-left corner is at minus half the window size. -/
def collect_render_regions (u : Universe) (vx0 vy0 vx1 vy1 : Int)
    (min_size : Nat) : List (Int × Int × Int × ℚ) :=
  collect_rec u.root (-half_size u.root.level) (-half_size u.root.level)
    vx0 vy0 vx1 vy1 min_size

theorem population_pos_of_live (n : Node) (cx cy : Int) :
    ∀ x y : Int, get_cell_recursive n cx cy x y = true → 0 < n.population := by
  induction n with
  | leaf a =>
      intro x y h
      simp only [get_cell_recursive] at h
      simp [Node.population, h]
  | inner nw ne sw se ihnw ihne ihsw ihse =>
      intro x y h
      simp only [get_cell_recursive] at h
      simp only [Node.population]
      split_ifs at h
      · have := ihnw _ _ h; omega
      · have := ihne _ _ h; omega
      · have := ihsw _ _ h; omega
      · have := ihse _ _ h; omega

theorem population_le_of_wf (n : Node) (hw : n.wf) :
    n.population ≤ 4 ^ n.level := by
  induction n with
  | leaf a => cases a <;> simp [Node.population, Node.level]
  | inner nw ne sw se ihnw ihne ihsw ihse =>
      obtain ⟨h1, h2, h3, w1, w2, w3, w4⟩ := hw
      simp only [Node.population, Node.level, pow_succ]
      have e0 := ihnw w1
      have e1 := ihne w2
      have e2 := ihsw w3
      have e3 := ihse w4
      rw [h1] at e1
      rw [h2] at e2
      rw [h3] at e3
      omega

/-- Every emitted tuple has positive density at most 1, side length within
the policy (at most `min_render_size`, or a single cell), and a square that
intersects the view rectangle. -/
theorem collect_rec_tuples (n : Node) (hw : n.wf) :
    ∀ (x y vx0 vy0 vx1 vy1 : Int) (min_size : Nat) (tx ty s : Int) (d : ℚ),
      (tx, ty, s, d) ∈ collect_rec n x y vx0 vy0 vx1 vy1 min_size →
      0 < d ∧ d ≤ 1 ∧ (s ≤ (min_size : Int) ∨ s = 1) ∧
        ¬(tx + s ≤ vx0 ∨ vx1 < tx ∨ ty + s ≤ vy0 ∨ vy1 < ty) := by
  induction n with
  | leaf a =>
      intro x y vx0 vy0 vx1 vy1 min_size tx ty s d hm
      unfold collect_rec at hm
      split_ifs at hm with hp hv hs
      · simp at hm
      · simp at hm
      · simp only [List.mem_singleton, Prod.mk.injEq] at hm
        obtain ⟨rfl, rfl, rfl, rfl⟩ := hm
        have hpop1 : (Node.leaf a).population = 1 := by
          cases a
          · simp [Node.population] at hp
          · rfl
        rw [hpop1]
        refine ⟨by simp [Node.level], by simp [Node.level], ?_,
          by simpa [Node.level] using hv⟩
        left
        simpa [Node.level] using hs
      · simp only [List.mem_singleton, Prod.mk.injEq] at hm
        obtain ⟨rfl, rfl, rfl, rfl⟩ := hm
        refine ⟨by norm_num, le_refl _, Or.inr rfl, ?_⟩
        simpa [Node.level] using hv
  | inner nw ne sw se ihnw ihne ihsw ihse =>
      intro x y vx0 vy0 vx1 vy1 min_size tx ty s d hm
      obtain ⟨h1, h2, h3, w1, w2, w3, w4⟩ := hw
      unfold collect_rec at hm
      split_ifs at hm with hp hv hs
      · simp at hm
      · simp at hm
      · simp only [List.mem_singleton, Prod.mk.injEq] at hm
        obtain ⟨rfl, rfl, rfl, rfl⟩ := hm
        have hpos : 0 < (Node.inner nw ne sw se).population := by omega
        have hle := population_le_of_wf (Node.inner nw ne sw se)
          ⟨h1, h2, h3, w1, w2, w3, w4⟩
        have hden : (0 : ℚ) <
            ((((2 : Int) ^ (Node.inner nw ne sw se).level : Int)) : ℚ) ^ 2 := by
          positivity
        refine ⟨by positivity, ?_, Or.inl hs, hv⟩
        rw [div_le_one hden]
        have hcast : ((((2 : Int) ^ (Node.inner nw ne sw se).level : Int)) : ℚ) ^ 2 =
            ((4 : ℚ)) ^ (Node.inner nw ne sw se).level := by
          push_cast
          rw [← pow_mul, mul_comm, pow_mul]
          norm_num
        rw [hcast]
        calc ((Node.inner nw ne sw se).population : ℚ) ≤
            ((4 ^ (Node.inner nw ne sw se).level : Nat) : ℚ) := by
              exact_mod_cast hle
          _ = (4 : ℚ) ^ (Node.inner nw ne sw se).level := by push_cast; ring
      · rcases List.mem_append.mp hm with hm' | hse'
        · rcases List.mem_append.mp hm' with hm'' | hsw'
          · rcases List.mem_append.mp hm'' with hnw' | hne'
            · exact ihnw w1 _ _ _ _ _ _ _ _ _ _ _ hnw'
            · exact ihne w2 _ _ _ _ _ _ _ _ _ _ _ hne'
          · exact ihsw w3 _ _ _ _ _ _ _ _ _ _ _ hsw'
        · exact ihse w4 _ _ _ _ _ _ _ _ _ _ _ hse'

/-- Every live cell inside the view rectangle is covered by some emitted
tuple's square: the walk only prunes empty or out-of-view subtrees. -/
theorem collect_rec_covers (n : Node) (hw : n.wf) :
    ∀ (x y vx0 vy0 vx1 vy1 : Int) (min_size : Nat) (cx cy : Int),
      vx0 ≤ cx → cx ≤ vx1 → vy0 ≤ cy → cy ≤ vy1 →
      x ≤ cx → cx < x + 2 ^ n.level → y ≤ cy → cy < y + 2 ^ n.level →
      get_cell_recursive n cx cy x y = true →
      ∃ tx ty s d,
        (tx, ty, s, d) ∈ collect_rec n x y vx0 vy0 vx1 vy1 min_size ∧
          tx ≤ cx ∧ cx < tx + s ∧ ty ≤ cy ∧ cy < ty + s := by
  induction n with
  | leaf a =>
      intro x y vx0 vy0 vx1 vy1 min_size cx cy hx0 hx1 hy0 hy1 hcx1 hcx2 hcy1
        hcy2 hlive
      simp only [get_cell_recursive] at hlive
      subst hlive
      simp only [Node.level, pow_zero] at hcx2 hcy2
      unfold collect_rec
      rw [if_neg (by simp [Node.population]), if_neg (by
        simp only [Node.level, pow_zero]
        omega)]
      by_cases hs : ((2 : Int) ^ (Node.leaf true).level) ≤ (min_size : Int)
      · rw [if_pos hs]
        refine ⟨x, y, 2 ^ (Node.leaf true).level, _,
          List.mem_singleton_self _, by omega, ?_, by omega, ?_⟩ <;>
          simp only [Node.level, pow_zero] <;> omega
      · rw [if_neg hs]
        exact ⟨x, y, 1, 1, List.mem_singleton_self _, by omega, by omega,
          by omega, by omega⟩
  | inner nw ne sw se ihnw ihne ihsw ihse =>
      intro x y vx0 vy0 vx1 vy1 min_size cx cy hx0 hx1 hy0 hy1 hcx1 hcx2 hcy1
        hcy2 hlive
      obtain ⟨h1, h2, h3, w1, w2, w3, w4⟩ := hw
      have hpos : 0 < (Node.inner nw ne sw se).population :=
        population_pos_of_live _ cx cy x y hlive
      have hKne : (2 : Int) ^ ne.level = 2 ^ nw.level := by rw [h1]
      have hKsw : (2 : Int) ^ sw.level = 2 ^ nw.level := by rw [h2]
      have hKse : (2 : Int) ^ se.level = 2 ^ nw.level := by rw [h3]
      have hKn : (2 : Int) ^ (Node.inner nw ne sw se).level =
          2 ^ nw.level * 2 := by
        simp only [Node.level]
        rw [pow_succ]
      unfold collect_rec
      rw [if_neg (by omega), if_neg (by omega)]
      by_cases hs : ((2 : Int) ^ (Node.inner nw ne sw se).level) ≤
          (min_size : Int)
      · rw [if_pos hs]
        exact ⟨x, y, 2 ^ (Node.inner nw ne sw se).level, _,
          List.mem_singleton_self _, hcx1, hcx2, hcy1, hcy2⟩
      · rw [if_neg hs]
        simp only [get_cell_recursive] at hlive
        rw [hKn] at hcx2 hcy2
        split_ifs at hlive with c1 c2 c3
        · obtain ⟨tx, ty, s, d, hmem, hb1, hb2, hb3, hb4⟩ :=
            ihnw w1 x y vx0 vy0 vx1 vy1 min_size cx cy hx0 hx1 hy0 hy1
              hcx1 c1.1 hcy1 c1.2 hlive
          refine ⟨tx, ty, s, d, ?_, hb1, hb2, hb3, hb4⟩
          simp only [List.mem_append]
          exact Or.inl (Or.inl (Or.inl hmem))
        · obtain ⟨tx, ty, s, d, hmem, hb1, hb2, hb3, hb4⟩ :=
            ihne w2 (x + 2 ^ nw.level) y vx0 vy0 vx1 vy1 min_size cx cy hx0
              hx1 hy0 hy1 c2.1 (by omega) hcy1 (by omega) hlive
          refine ⟨tx, ty, s, d, ?_, hb1, hb2, hb3, hb4⟩
          simp only [List.mem_append]
          exact Or.inl (Or.inl (Or.inr hmem))
        · obtain ⟨tx, ty, s, d, hmem, hb1, hb2, hb3, hb4⟩ :=
            ihsw w3 x (y + 2 ^ nw.level) vx0 vy0 vx1 vy1 min_size cx cy hx0
              hx1 hy0 hy1 hcx1 (by omega) c3.2 (by omega) hlive
          refine ⟨tx, ty, s, d, ?_, hb1, hb2, hb3, hb4⟩
          simp only [List.mem_append]
          exact Or.inl (Or.inr hmem)
        · obtain ⟨tx, ty, s, d, hmem, hb1, hb2, hb3, hb4⟩ :=
            ihse w4 (x + 2 ^ nw.level) (y + 2 ^ nw.level) vx0 vy0 vx1 vy1
              min_size cx cy hx0 hx1 hy0 hy1 (by omega) (by omega) (by omega)
              (by omega) hlive
          refine ⟨tx, ty, s, d, ?_, hb1, hb2, hb3, hb4⟩
          simp only [List.mem_append]
          exact Or.inr hmem

/-- C6 (against the spec-modelled `collect_render_regions`): the walk skips
empty and out-of-view subtrees and emits density-annotated tuples - each
with positive density at most 1 (a live leaf tuple has density exactly 1 =
1/1²), side length within the `min_render_size` policy, and a square
intersecting the view - and every live cell inside the view rectangle is
covered by some emitted tuple. -/
theorem collect_render_regions_spec (u : Universe) (vx0 vy0 vx1 vy1 : Int)
    (min_size : Nat) (hw : u.root.wf) (hl : 1 ≤ u.root.level) :
    (∀ (tx ty s : Int) (d : ℚ),
        (tx, ty, s, d) ∈ collect_render_regions u vx0 vy0 vx1 vy1 min_size →
        0 < d ∧ d ≤ 1 ∧ (s ≤ (min_size : Int) ∨ s = 1) ∧
          ¬(tx + s ≤ vx0 ∨ vx1 < tx ∨ ty + s ≤ vy0 ∨ vy1 < ty)) ∧
      ∀ cx cy : Int, vx0 ≤ cx → cx ≤ vx1 → vy0 ≤ cy → cy ≤ vy1 →
        get_cell u cx cy = true →
        ∃ tx ty s d,
          (tx, ty, s, d) ∈
              collect_render_regions u vx0 vy0 vx1 vy1 min_size ∧
            tx ≤ cx ∧ cx < tx + s ∧ ty ≤ cy ∧ cy < ty + s := by
  constructor
  · intro tx ty s d hm
    exact collect_rec_tuples u.root hw _ _ _ _ _ _ _ tx ty s d hm
  · intro cx cy h1' h2' h3' h4' hlive
    unfold get_cell at hlive
    by_cases hout : cx < -half_size u.root.level ∨
        cx ≥ half_size u.root.level ∨ cy < -half_size u.root.level ∨
        cy ≥ half_size u.root.level
    · rw [if_pos hout] at hlive
      exact absurd hlive (by simp)
    · rw [if_neg hout] at hlive
      obtain ⟨l', hl'⟩ : ∃ l', u.root.level = l' + 1 :=
        ⟨u.root.level - 1, by omega⟩
      have hhs : half_size u.root.level = 2 ^ l' := by
        rw [hl']
        exact half_size_succ l'
      have h2L : (2 : Int) ^ u.root.level = 2 ^ l' * 2 := by
        rw [hl', pow_succ]
      unfold collect_render_regions
      refine collect_rec_covers u.root hw _ _ vx0 vy0 vx1 vy1 min_size cx cy
        h1' h2' h3' h4' ?_ ?_ ?_ ?_ hlive <;> omega

/-- Witness for C6: a single live cell at the origin is covered by an
emitted region. -/
theorem collect_render_regions_spec_witness :
    ∃ tx ty s d,
      (tx, ty, s, d) ∈ collect_render_regions
          (set_cell (Universe.new 3) 0 0 true) (-2) (-2) 2 2 1 ∧
        tx ≤ 0 ∧ 0 < tx + s ∧ ty ≤ 0 ∧ 0 < ty + s := by
  have h := collect_render_regions_spec (set_cell (Universe.new 3) 0 0 true)
    (-2) (-2) 2 2 1 (by decide) (by decide)
  exact h.2 0 0 (by decide) (by decide) (by decide) (by decide) (by decide)

end RenderRegions

/-- Validation of the evolution embedding against the repository's own
`test_blinker` test: a horizontal blinker at (0,0),(1,0),(2,0) in a level-4
universe becomes vertical at (1,-1),(1,0),(1,1) after one step and returns
to horizontal after two, with population 3 throughout - exactly the
assertions of the Rust test suite. -/
theorem step_matches_blinker_test :
    (let u := set_cell (set_cell (set_cell (Universe.new 4) 0 0 true)
      1 0 true) 2 0 true
    u.root.population = 3 ∧ u.generation = 0 ∧
      (step u).generation = 1 ∧
      get_cell (step u) 0 0 = false ∧ get_cell (step u) 1 0 = true ∧
      get_cell (step u) 2 0 = false ∧ get_cell (step u) 1 (-1) = true ∧
      get_cell (step u) 1 1 = true ∧ (step u).root.population = 3 ∧
      (step (step u)).generation = 2 ∧
      get_cell (step (step u)) 0 0 = true ∧
      get_cell (step (step u)) 1 0 = true ∧
      get_cell (step (step u)) 2 0 = true ∧
      get_cell (step (step u)) 1 (-1) = false ∧
      get_cell (step (step u)) 1 1 = false ∧
      (step (step u)).root.population = 3) := by
  decide
